import Mathlib

/-!
Verification of the mujs property-storage subsystem (`src/jsproperty.c`).

The C code stores each object's properties in an AA-tree whose nodes double as
members of an insertion-ordered singly linked list (`head`/`tail`/`next` with a
`prevp` back pointer).  This file gives a shallow embedding of that code:

* `Tree` embeds the `js_Property` search-tree structure.  The shared sentinel
  record (level 0, both child links pointing at itself) is embedded as
  `Tree.nil`; accordingly `Tree.left`/`Tree.right` of `nil` are `nil`, which
  mirrors the sentinel's self links.
* `lookup`, `skew`, `split`, `insert`, `adjust`/`delete` are direct
  transcriptions of the corresponding C functions (the rebalancing block inside
  the C `delete` is factored out as `adjust`, exactly the code within
  `if (node->left->level < node->level - 1 || ...)`).
* The ordered list is embedded as lists of names.  `freenode` never repairs
  `obj->tail`, so deleting the most recently appended record leaves `obj->tail`
  pointing at the freed node, and later fresh records are appended behind that
  freed node where the enumeration walk from `obj->head` can never see them.
  The embedding keeps the visible chain (`live`), the invisible records
  (`limbo`) and whether `obj->tail` still points at the last visible record
  (`detached = false`).
* Enumeration (`itshadow`, `itwalk`, `jsV_newiterator`, `jsV_nextiterator`) and
  array resizing (`jsV_resizearray`) are embedded over prototype chains
  represented as lists of stores (acyclicity of prototype chains is an external
  invariant of the runtime, so a chain is a finite list).
-/

set_option maxHeartbeats 1000000

namespace MuJS

/-- Property names are compared with `strcmp`, the lexicographic order on the
character sequence; decide it through the character list so that concrete
executions evaluate. -/
instance (priority := 2000) decidableStringLT (a b : String) : Decidable (a < b) :=
  decidable_of_iff (a.toList < b.toList) String.lt_iff_toList_lt.symm

/-- Attributes and value of a `js_Property` record.  The value payload is
opaque to this subsystem; it is embedded as a `Nat`. -/
structure PropData where
  atts : Nat
  value : Nat
deriving DecidableEq, Repr

/-- The `js_Property` search tree.  `nil` is the shared sentinel record
(level 0); a `node` carries the record's name, attributes, value, AA level and
the two child links. -/
inductive Tree where
  | nil : Tree
  | node (left : Tree) (name : String) (atts : Nat) (value : Nat) (level : Nat) (right : Tree) : Tree
deriving DecidableEq, Repr

namespace Tree

/-- `level` of a tree; the sentinel has level 0. -/
def level : Tree → Nat
  | .nil => 0
  | .node _ _ _ _ lev _ => lev

/-- Left child; the sentinel's `left` points at the sentinel itself. -/
def left : Tree → Tree
  | .nil => .nil
  | .node l _ _ _ _ _ => l

/-- Right child; the sentinel's `right` points at the sentinel itself. -/
def right : Tree → Tree
  | .nil => .nil
  | .node _ _ _ _ _ r => r

/-- Store into the `right` field.  In the C delete rebalancing this write can
target the sentinel only in the form `sentinel->right = skew(sentinel->right)`,
which stores the value the field already holds, so mapping it to the identity
on `nil` is faithful. -/
def setRight : Tree → Tree → Tree
  | .nil, _ => .nil
  | .node l nm a v lev _, r => .node l nm a v lev r

/-- Store into the `level` field.  The C clamp `node->right->level = ...`
can never target the sentinel (it would need `0 > node->level` after the
decrement), so mapping it to the identity on `nil` is faithful. -/
def setLevel : Tree → Nat → Tree
  | .nil, _ => .nil
  | .node l nm a v _ r, lev => .node l nm a v lev r

end Tree

/-- `lookup` from jsproperty.c: standard BST descent by `strcmp`. -/
def lookup : Tree → String → Option PropData
  | .nil, _ => none
  | .node l nm a v _ r, x =>
    if x < nm then lookup l x
    else if nm < x then lookup r x
    else some ⟨a, v⟩

/-- `skew` from jsproperty.c: right rotation when the left link is horizontal.
When called on the sentinel the C writes store the values the fields already
hold (all self links), so the sentinel maps to itself. -/
def skew : Tree → Tree
  | .node (.node ll lnm la lv llev lr) nm a v lev r =>
    if llev = lev then .node ll lnm la lv llev (.node lr nm a v lev r)
    else .node (.node ll lnm la lv llev lr) nm a v lev r
  | t => t

/-- `split` from jsproperty.c: left rotation with level increase when two
consecutive right links are horizontal. -/
def split : Tree → Tree
  | .node l nm a v lev (.node rl rnm ra rv rlev rr) =>
    if rr.level = lev then .node (.node l nm a v lev rl) rnm ra rv (rlev + 1) rr
    else .node l nm a v lev (.node rl rnm ra rv rlev rr)
  | t => t

/-- `insert` from jsproperty.c.  The boolean component is true when a fresh
record was allocated by `newproperty` (new records carry attributes 0, an
undefined value — embedded as 0 — and level 1); it is false when the name was
already present, in which case the C returns the existing record through
`*result` without structural change.  `skew` and `split` run at every node of
the descent path on the way back up. -/
def insert : Tree → String → Tree × Bool
  | .nil, x => (.node .nil x 0 0 1 .nil, true)
  | .node l nm a v lev r, x =>
    if x < nm then
      let p := insert l x
      (split (skew (.node p.1 nm a v lev r)), p.2)
    else if nm < x then
      let p := insert r x
      (split (skew (.node l nm a v lev p.1)), p.2)
    else (.node l nm a v lev r, false)

/-- The caller of `jsV_setproperty` writes the value and attributes through the
returned `js_Property` pointer; this updates that record in place, which in the
embedding is the unique tree node carrying the name. -/
def writeRec : Tree → String → Nat → Nat → Tree
  | .nil, _, _, _ => .nil
  | .node l nm a0 v0 lev r, x, a, v =>
    if x < nm then .node (writeRec l x a v) nm a0 v0 lev r
    else if nm < x then .node l nm a0 v0 lev (writeRec r x a v)
    else .node l nm a v lev r

/-- The successor scan in the C `delete`: `succ = node->right;
while (succ->left != &sentinel) succ = succ->left;` — here applied to the
right subtree, returning the leftmost record's name, attributes and value. -/
def minRec : Tree → String × Nat × Nat
  | .nil => ("", 0, 0)
  | .node .nil nm a v _ _ => (nm, a, v)
  | .node (.node ll lnm la lv llev lr) _ _ _ _ _ => minRec (.node ll lnm la lv llev lr)

/-- The rebalancing block at the end of the C `delete`: when a child's level
has fallen two below the node's, decrement the node's level, clamp the right
child's level to it, then `skew` the node, its right child and its
right-right grandchild, and `split` the node and its right child.
The C condition `node->left->level < node->level - 1` uses signed arithmetic;
`l.level + 1 < lev` is its exact integer meaning for every `Nat` level. -/
def adjust (t : Tree) : Tree :=
  match t with
  | .nil => .nil
  | .node l nm a v lev r =>
    if l.level + 1 < lev ∨ r.level + 1 < lev then
      let r' := if lev - 1 < r.level then r.setLevel (lev - 1) else r
      let n1 := skew (.node l nm a v (lev - 1) r')
      let n2 := n1.setRight (skew n1.right)
      let n3 := n2.setRight (n2.right.setRight (skew n2.right.right))
      let n4 := split n3
      n4.setRight (split n4.right)
    else t

/-- `delete` from jsproperty.c (tree shape).  A record with at most one real
child is spliced out; a record with two children receives its in-order
successor's name/attributes/value and the successor is deleted from the right
subtree.  Every node on the way out passes through the rebalancing block
(`adjust`). -/
def delete : Tree → String → Tree
  | .nil, _ => .nil
  | .node l nm a v lev r, x =>
    if x < nm then adjust (.node (delete l x) nm a v lev r)
    else if nm < x then adjust (.node l nm a v lev (delete r x))
    else if l = .nil then adjust r
    else if r = .nil then adjust l
    else adjust (.node l (minRec r).1 (minRec r).2.1 (minRec r).2.2 lev (delete r (minRec r).1))

/-- Ordered-list state of one object: the chain reachable from `obj->head`
(`live`), the records that are in the tree but no longer reachable from
`obj->head` (`limbo`), and whether `obj->tail` has been left dangling on a
freed record (`detached = true`). -/
structure LState where
  live : List String
  limbo : List String
  detached : Bool
deriving DecidableEq, Repr

/-- `freenode` from jsproperty.c: unlink the freed record from whichever chain
holds it (`*node->prevp = node->next`, fixing the successor's `prevp`).
`freenode` does not repair `obj->tail`; if the freed record is the one
`obj->tail` points at — the last visible record while the tail is attached —
the tail pointer is left dangling (`detached`). -/
def unlinkRec (st : LState) (f : String) : LState :=
  if f ∈ st.live then
    { live := st.live.erase f
      limbo := st.limbo
      detached := st.detached || (st.live.getLast? == some f) }
  else
    { st with limbo := st.limbo.erase f }

/-- The two-child case of the C `delete` writes the successor's name (and
attributes/value) into the target record, which keeps the target's position in
the ordered list but relabels it.  The C performs this write before the
recursive delete frees the successor's record; the two records are distinct,
so applying the rename after the unlink has the same net effect. -/
def renameRec (st : LState) (x s : String) : LState :=
  { live := st.live.map fun k => if k = x then s else k
    limbo := st.limbo.map fun k => if k = x then s else k
    detached := st.detached }

/-- Ordered-list effect of the C `delete`: mirrors the recursion of `delete`,
applying `freenode`'s unlink at the spliced record and the successor-rename in
the two-child case. -/
def delState : Tree → String → LState → LState
  | .nil, _, st => st
  | .node l nm _ _ _ r, x, st =>
    if x < nm then delState l x st
    else if nm < x then delState r x st
    else if l = .nil then unlinkRec st nm
    else if r = .nil then unlinkRec st nm
    else renameRec (delState r (minRec r).1 st) nm (minRec r).1

/-- One object's property store: the tree root plus the ordered-list state. -/
structure Store where
  tree : Tree
  live : List String
  limbo : List String
  detached : Bool
deriving DecidableEq, Repr

/-- A fresh object: tree root is the sentinel, `head`/`tail` are null. -/
def Store.empty : Store := ⟨.nil, [], [], false⟩

/-- `jsV_setproperty` from jsproperty.c, together with the caller writing the
value and attributes through the returned record.  A freshly created record
(null `prevp`) is appended: at `obj->head` when the visible chain is empty
(which also re-targets `obj->tail`), after the record `obj->tail` points at
otherwise — behind the freed record, invisibly, when the tail is dangling. -/
def jsV_setproperty (st : Store) (x : String) (a v : Nat) : Store :=
  let p := insert st.tree x
  let t := writeRec p.1 x a v
  if p.2 then
    if st.live.isEmpty then { tree := t, live := [x], limbo := st.limbo, detached := false }
    else if st.detached then { st with tree := t, limbo := st.limbo ++ [x] }
    else { st with tree := t, live := st.live ++ [x] }
  else { st with tree := t }

/-- `jsV_delproperty` from jsproperty.c: replace the tree root by the result
of `delete`; the freed record (if any) is unlinked from the ordered list. -/
def jsV_delproperty (st : Store) (x : String) : Store :=
  let ls := delState st.tree x ⟨st.live, st.limbo, st.detached⟩
  { tree := delete st.tree x, live := ls.live, limbo := ls.limbo, detached := ls.detached }

/-- The mutating operations a client can apply to one object's store. -/
inductive Op where
  | set (name : String) (atts value : Nat) : Op
  | del (name : String) : Op
deriving DecidableEq, Repr

def applyOp (st : Store) : Op → Store
  | .set n a v => jsV_setproperty st n a v
  | .del n => jsV_delproperty st n

def applyOps (st : Store) (ops : List Op) : Store := ops.foldl applyOp st

/-- Modelled from the spec: the attribute bit flags declared in `jsi.h` (not
part of src/) include at minimum a non-enumerable flag, `JS_DONTENUM`. -/
def JS_DONTENUM : Nat := 2

/-- `jsV_getownproperty` from jsproperty.c. -/
def jsV_getownproperty (st : Store) (x : String) : Option PropData := lookup st.tree x

/-- `jsV_getproperty` from jsproperty.c: walk the prototype chain (embedded
as a list of stores, the object itself first), returning the first hit. -/
def jsV_getproperty : List Store → String → Option PropData
  | [], _ => none
  | st :: protos, x =>
    match lookup st.tree x with
    | some p => some p
    | none => jsV_getproperty protos x

/-- `itshadow` from jsproperty.c: walk the chain from `top` to (but not
including) `bot` — here, the list of levels strictly above the current one —
and report whether any of them holds an enumerable record of this name. -/
def itshadow : List Store → String → Bool
  | [], _ => false
  | top :: rest, x =>
    match lookup top.tree x with
    | some p => if p.atts &&& JS_DONTENUM == 0 then true else itshadow rest x
    | none => itshadow rest x

/-- One level's contribution in `itwalk`: walk the records reachable from
`obj->head` in order, keeping those that are enumerable and not shadowed by a
level closer to the top.  The C reads `prop->atts` directly from the record;
the record is the unique tree node with this name, so `lookup` retrieves the
same attributes (every visible name is in the tree, so the `none` arm is
unreachable for stores built by the API). -/
def levelNames (above : List Store) (cur : Store) : List String :=
  cur.live.filter fun x =>
    match lookup cur.tree x with
    | some p => (p.atts &&& JS_DONTENUM == 0) && !itshadow above x
    | none => false

/-- The chain walk of `itwalk`: visit the levels top-down, accumulating the
levels already visited for the shadow test; stop after the first level when
`own` is set. -/
def itwalkAux : List Store → List Store → Bool → List String
  | _, [], _ => []
  | above, cur :: protos, own =>
    levelNames above cur ++ (if own then [] else itwalkAux (above ++ [cur]) protos own)

/-- `itwalk` from jsproperty.c: the flattened, shadow-resolved name sequence
appended to the iterator. -/
def itwalk (chain : List Store) (own : Bool) : List String := itwalkAux [] chain own

/-- `jsV_newiterator` from jsproperty.c: the iterator's snapshot queue. -/
def jsV_newiterator (chain : List Store) (own : Bool) : List String := itwalk chain own

/-- `jsV_nextiterator` from jsproperty.c: pop queued names, re-resolving each
against the target object via `jsV_getproperty` and skipping the ones that no
longer resolve; return the first surviving name with the rest of the queue. -/
def jsV_nextiterator (chain : List Store) : List String → Option (String × List String)
  | [] => none
  | x :: rest =>
    if (jsV_getproperty chain x).isSome then some (x, rest)
    else jsV_nextiterator chain rest

/-- Repeatedly calling `jsV_nextiterator` until it signals end-of-sequence
(the chain is not mutated between calls): the list of names produced. -/
def drainIter (chain : List Store) : List String → List String
  | [] => []
  | x :: rest =>
    if (jsV_getproperty chain x).isSome then x :: drainIter chain rest
    else drainIter chain rest

/-- Modelled from the spec: `jsV_stringtonumber` (defined in jsvalue.c, not
part of src/) converts a property name to a number; a string of decimal digits
denotes its value, anything else is embedded as `none` (NaN and the other
non-index cases). -/
def jsV_stringtonumber (s : String) : Option Nat :=
  if s ≠ "" ∧ s.data.all Char.isDigit then
    some (s.data.foldl (fun acc c => acc * 10 + (c.toNat - 48)) 0)
  else none

/-- Modelled from the spec: `jsV_numbertouint32` (not part of src/) reduces a
number to an unsigned 32-bit integer; NaN converts to 0. -/
def jsV_numbertouint32 : Option Nat → Nat
  | some n => n % 4294967296
  | none => 0

/-- Modelled from the spec: `jsV_numbertostring` (not part of src/) on an
unsigned integer produces its canonical decimal representation. -/
def jsV_numbertostring (n : Nat) : String := toString n

/-- An array object: its property store, its prototype chain, and the stored
length field `u.a.length`. -/
structure ArrObj where
  store : Store
  protos : List Store
  length : Nat
deriving DecidableEq, Repr

/-- The `while ((s = jsV_nextiterator(J, it)))` loop of `jsV_resizearray`:
each queued name is re-resolved against the (mutating) object; a name that
still resolves is deleted when its numeric conversion is at least the new
length and converts back to exactly the same string. -/
def resizeLoop (newlen : Nat) (protos : List Store) (st : Store) : List String → Store
  | [] => st
  | x :: rest =>
    if (jsV_getproperty (st :: protos) x).isSome then
      if newlen ≤ jsV_numbertouint32 (jsV_stringtonumber x) ∧
          x = jsV_numbertostring (jsV_numbertouint32 (jsV_stringtonumber x)) then
        resizeLoop newlen protos (jsV_delproperty st x) rest
      else resizeLoop newlen protos st rest
    else resizeLoop newlen protos st rest

/-- `jsV_resizearray` from jsproperty.c: when shrinking, snapshot the object's
own enumerable properties and delete the canonical-index ones at or beyond the
new length; finally store the new length unconditionally. -/
def jsV_resizearray (obj : ArrObj) (newlen : Nat) : ArrObj :=
  if newlen < obj.length then
    { store := resizeLoop newlen obj.protos obj.store
        (jsV_newiterator (obj.store :: obj.protos) true)
      protos := obj.protos
      length := newlen }
  else { obj with length := newlen }

/-! ## Invariants and specification-side models -/

/-- The AA invariant in its compact form: at every node the left child's level
is exactly one less, the right child's level is equal or one less, and the
right-right grandchild's level is strictly less. -/
def AA : Tree → Prop
  | .nil => True
  | .node l _ _ _ lev r =>
    AA l ∧ AA r ∧ l.level + 1 = lev ∧ (r.level = lev ∨ r.level + 1 = lev) ∧
      r.right.level < lev

/-- The structural AA-tree invariants exactly as the specification lists them,
at every node: every leaf has level 1; every left child's level is one less
than its parent's; every right child's level equals its parent's level or is
one less; every right-grandchild's level is strictly less than its
grandparent's; every node of level greater than 1 has two non-sentinel
children; left-horizontal links are forbidden; consecutive right-horizontal
links are forbidden. -/
def AAinv : Tree → Prop
  | .nil => True
  | .node l _ _ _ lev r =>
    ((l = .nil ∧ r = .nil) → lev = 1) ∧
    l.level + 1 = lev ∧
    (r.level = lev ∨ r.level + 1 = lev) ∧
    r.right.level < lev ∧
    (1 < lev → l ≠ .nil ∧ r ≠ .nil) ∧
    l.level ≠ lev ∧
    ¬(r.level = lev ∧ r.right.level = r.level) ∧
    AAinv l ∧ AAinv r

/-- Right-horizontal link at the root. -/
def rh : Tree → Bool
  | .nil => false
  | .node _ _ _ _ lev r => r.level == lev

/-- In-order list of (name, data) pairs. -/
def inorder : Tree → List (String × PropData)
  | .nil => []
  | .node l nm a v _ r => inorder l ++ (nm, ⟨a, v⟩) :: inorder r

/-- In-order list of names. -/
def keys (t : Tree) : List String := (inorder t).map Prod.fst

/-- Association-list find, the specification-side meaning of `lookup`. -/
def findD : List (String × PropData) → String → Option PropData
  | [], _ => none
  | (k, d) :: tl, x => if x = k then some d else findD tl x

/-- Sorted-association-list insertion of a fresh record (attributes 0,
undefined value), the specification-side meaning of `insert`. -/
def insList : List (String × PropData) → String → List (String × PropData)
  | [], x => [(x, ⟨0, 0⟩)]
  | (k, d) :: tl, x =>
    if x < k then (x, ⟨0, 0⟩) :: (k, d) :: tl
    else if k < x then (k, d) :: insList tl x
    else (k, d) :: tl

/-- Removal of the first pair with the given key, the specification-side
meaning of `delete`. -/
def delList : List (String × PropData) → String → List (String × PropData)
  | [], _ => []
  | (k, d) :: tl, x => if k = x then tl else (k, d) :: delList tl x

/-- Rewrite of the data stored under a key, the specification-side meaning of
`writeRec`. -/
def wrList (m : List (String × PropData)) (x : String) (a v : Nat) :
    List (String × PropData) :=
  m.map fun p => if p.1 = x then (p.1, ⟨a, v⟩) else p

/-- Specification-side map semantics of an operation sequence: the last
written data for each name, erased by deletion. -/
def specStepMap (m : String → Option PropData) : Op → (String → Option PropData)
  | .set n a v => fun y => if y = n then some ⟨a, v⟩ else m y
  | .del n => fun y => if y = n then none else m y

/-- The map (name to last-written data) denoted by an operation sequence. -/
def specFind (ops : List Op) : String → Option PropData :=
  ops.foldl specStepMap fun _ => none

/-- Specification-side ordered model: names in first-insertion order with
their last-written attributes; a repeated set updates attributes in place, a
delete removes the name. -/
def specStep (m : List (String × Nat)) : Op → List (String × Nat)
  | .set n a _ =>
    if m.any fun p => p.1 == n then m.map fun p => if p.1 = n then (n, a) else p
    else m ++ [(n, a)]
  | .del n => m.filter fun p => p.1 != n

/-- The first-insertion-ordered (name, attributes) list denoted by an
operation sequence. -/
def specList (ops : List Op) : List (String × Nat) := ops.foldl specStep []

/-- Does the tree node carrying this name have two non-sentinel children? -/
def twoChildAt : Tree → String → Bool
  | .nil, _ => false
  | .node l nm _ _ _ r, x =>
    if x < nm then twoChildAt l x
    else if nm < x then twoChildAt r x
    else !(l == .nil) && !(r == .nil)

/-- An operation sequence is "simple" when every delete avoids both
list-reordering behaviours of the code: it never deletes a name whose tree
node has two non-sentinel children (which would relabel the target record
with the successor name) and never deletes the most recently appended visible
record (which would leave `obj->tail` dangling). -/
def simpleOps : Store → List Op → Bool
  | _, [] => true
  | st, .set n a v :: ops => simpleOps (jsV_setproperty st n a v) ops
  | st, .del n :: ops =>
    (!twoChildAt st.tree n && !(st.live.getLast? == some n)) &&
      simpleOps (jsV_delproperty st n) ops

/-! ## Sentinel-write instrumentation

The C rebalancing applies `skew` and `split` through pointers that can reach
the sentinel.  `skew(sentinel)` stores into `sentinel->left` and
`sentinel->right` the values those fields already hold; the only calls that
would change the sentinel's observable state (its level 0 and self links) are
a `split` whose rotation fires with the sentinel as the new root — which
increments `sentinel->level` — and a `skew`/`split` rotation through a node
whose level is 0.  The flags below record exactly the calls whose C writes
would change the sentinel record. -/

/-- Would the C `skew` change the sentinel's state on this argument?  Only a
rotation through a left sentinel child of a level-0 node would (it stores the
node into `sentinel->right`). -/
def skewTouch : Tree → Bool
  | .nil => false
  | .node l _ _ _ lev _ => l == .nil && lev == 0

/-- Would the C `split` change the sentinel's state on this argument?  On the
sentinel itself the guard `sentinel->right->right->level == sentinel->level`
holds (0 = 0) and the rotation increments `sentinel->level`; on a level-0 node
with sentinel right child the rotation would store into `sentinel->left` and
increment `sentinel->level`. -/
def splitTouch : Tree → Bool
  | .nil => true
  | .node _ _ _ _ lev r => r == .nil && lev == 0

/-- Sentinel-state-changing writes of the rebalancing block, mirroring
`adjust` step by step.  (The clamp write targets the sentinel only if
`0 > node->level - 1`, which never holds when the block runs, and the store
`node->right->right = skew(...)` with a sentinel `node->right` rewrites
`sentinel->right` with its current value; neither changes the sentinel.) -/
def adjTouch (t : Tree) : Bool :=
  match t with
  | .nil => false
  | .node l nm a v lev r =>
    if l.level + 1 < lev ∨ r.level + 1 < lev then
      let r' := if lev - 1 < r.level then r.setLevel (lev - 1) else r
      let n1 := skew (.node l nm a v (lev - 1) r')
      let n2 := n1.setRight (skew n1.right)
      let n3 := n2.setRight (n2.right.setRight (skew n2.right.right))
      let n4 := split n3
      skewTouch (.node l nm a v (lev - 1) r') || skewTouch n1.right ||
        skewTouch n2.right.right || splitTouch n3 || splitTouch n4.right
    else false

/-- Sentinel-state-changing writes along a whole `delete`. -/
def delTouch : Tree → String → Bool
  | .nil, _ => false
  | .node l nm a v lev r, x =>
    if x < nm then delTouch l x || adjTouch (.node (delete l x) nm a v lev r)
    else if nm < x then delTouch r x || adjTouch (.node l nm a v lev (delete r x))
    else if l = .nil then adjTouch r
    else if r = .nil then adjTouch l
    else delTouch r (minRec r).1 ||
      adjTouch (.node l (minRec r).1 (minRec r).2.1 (minRec r).2.2 lev (delete r (minRec r).1))

/-- Sentinel-state-changing writes along a whole `insert`: `skew` and `split`
run at every node of the descent path. -/
def insTouch : Tree → String → Bool
  | .nil, _ => false
  | .node l nm a v lev r, x =>
    if x < nm then
      insTouch l x || skewTouch (.node (insert l x).1 nm a v lev r) ||
        splitTouch (skew (.node (insert l x).1 nm a v lev r))
    else if nm < x then
      insTouch r x || skewTouch (.node l nm a v lev (insert r x).1) ||
        splitTouch (skew (.node l nm a v lev (insert r x).1))
    else false

/-- BST order invariant: the in-order key list is strictly sorted. -/
def Ordered (t : Tree) : Prop := (keys t).Pairwise (· < ·)

/-- Well-formedness of a store: the tree is a valid AA search tree, the list
names are distinct, and the visible and invisible records together are exactly
the tree's records. -/
structure WFS (st : Store) : Prop where
  aa : AA st.tree
  ord : Ordered st.tree
  nodup : (st.live ++ st.limbo).Nodup
  mem : ∀ n, (n ∈ st.live ∨ n ∈ st.limbo) ↔ n ∈ keys st.tree

/-- The per-level blocks of the chain walk: level `i` contributes
`levelNames` of the levels above it. -/
def itblocks : List Store → List Store → List (List String)
  | _, [] => []
  | above, cur :: protos => levelNames above cur :: itblocks (above ++ [cur]) protos

/-- The deletion test of `jsV_resizearray` on one name: its unsigned-integer
conversion is at least the new length and converts back to the same string. -/
abbrev resizeCond (newlen : Nat) (x : String) : Prop :=
  newlen ≤ jsV_numbertouint32 (jsV_stringtonumber x) ∧
    x = jsV_numbertostring (jsV_numbertouint32 (jsV_stringtonumber x))

/-- Relation between a store and the specification-side ordered model for
operation sequences without two-child or tail deletes: the visible list is the
model's names in order, nothing is in limbo, the tail is not dangling, and the
tree carries the model's attributes. -/
structure SLinv (st : Store) (m : List (String × Nat)) : Prop where
  wfs : WFS st
  live_eq : st.live = m.map Prod.fst
  limbo_nil : st.limbo = []
  det : st.detached = false
  atts : ∀ p ∈ m, ∃ w, lookup st.tree p.1 = some ⟨p.2, w⟩

/-! ## Basic structural lemmas -/

@[simp] theorem level_nil : Tree.level .nil = 0 := rfl

@[simp] theorem level_node {l r : Tree} {nm : String} {a v lev : Nat} :
    (Tree.node l nm a v lev r).level = lev := rfl

@[simp] theorem left_nil : Tree.left .nil = .nil := rfl

@[simp] theorem left_node {l r : Tree} {nm : String} {a v lev : Nat} :
    (Tree.node l nm a v lev r).left = l := rfl

@[simp] theorem right_nil : Tree.right .nil = .nil := rfl

@[simp] theorem right_node {l r : Tree} {nm : String} {a v lev : Nat} :
    (Tree.node l nm a v lev r).right = r := rfl

@[simp] theorem setRight_nil {x : Tree} : Tree.setRight .nil x = .nil := rfl

@[simp] theorem setRight_node {l r x : Tree} {nm : String} {a v lev : Nat} :
    (Tree.node l nm a v lev r).setRight x = .node l nm a v lev x := rfl

@[simp] theorem setLevel_nil {k : Nat} : Tree.setLevel .nil k = .nil := rfl

@[simp] theorem setLevel_node {l r : Tree} {nm : String} {a v lev k : Nat} :
    (Tree.node l nm a v lev r).setLevel k = .node l nm a v k r := rfl

theorem level_eq_zero_iff {t : Tree} : t.level = 0 ↔ t = .nil ∨ ∃ l nm a v r, t = .node l nm a v 0 r := by
  cases t <;> simp [Tree.level]

theorem ne_nil_of_level {t : Tree} (h : 0 < t.level) : t ≠ .nil := by
  cases t <;> simp_all [Tree.level]

@[simp] theorem rh_nil : rh .nil = false := rfl

@[simp] theorem rh_node {l r : Tree} {nm : String} {a v lev : Nat} :
    rh (.node l nm a v lev r) = (r.level == lev) := rfl

theorem skew_eq_self (t : Tree) (h : t.left.level ≠ t.level) : skew t = t := by
  cases t with
  | nil => rfl
  | node l nm a v lev r =>
    cases l with
    | nil => rfl
    | node ll lnm la lv llev lr => simp_all [skew, Tree.left, Tree.level]

theorem skew_fire {ll lr r : Tree} {lnm nm : String} {la lv a v lev : Nat} :
    skew (.node (.node ll lnm la lv lev lr) nm a v lev r) =
      .node ll lnm la lv lev (.node lr nm a v lev r) := by
  simp [skew]

theorem split_eq_self (t : Tree) (h : t.right.right.level ≠ t.level) : split t = t := by
  cases t with
  | nil => rfl
  | node l nm a v lev r =>
    cases r with
    | nil => rfl
    | node rl rnm ra rv rlev rr => simp_all [split, Tree.right, Tree.level]

theorem split_fire {l rl rr : Tree} {nm rnm : String} {a v lev ra rv rlev : Nat}
    (h : rr.level = lev) :
    split (.node l nm a v lev (.node rl rnm ra rv rlev rr)) =
      .node (.node l nm a v lev rl) rnm ra rv (rlev + 1) rr := by
  simp [split, h]

theorem skew_ne_nil {l r : Tree} {nm : String} {a v lev : Nat} :
    skew (.node l nm a v lev r) ≠ .nil := by
  cases l with
  | nil => simp [skew]
  | node ll lnm la lv llev lr =>
    by_cases h : llev = lev <;> simp [skew, h]

/-! ## AA invariant: basic lemmas -/

@[simp] theorem AA_nil : AA .nil := trivial

theorem AA_node_iff {l r : Tree} {nm : String} {a v lev : Nat} :
    AA (.node l nm a v lev r) ↔
      AA l ∧ AA r ∧ l.level + 1 = lev ∧ (r.level = lev ∨ r.level + 1 = lev) ∧
        r.right.level < lev := Iff.rfl

theorem AA.right_le {t : Tree} (h : AA t) : t.right.level ≤ t.level := by
  cases t with
  | nil => simp
  | node l nm a v lev r =>
    rcases h with ⟨-, -, -, h4, -⟩
    simp only [right_node, level_node]
    omega

theorem AA.left_lt {t : Tree} (h : AA t) (hne : t ≠ .nil) : t.left.level + 1 = t.level := by
  cases t with
  | nil => simp at hne
  | node l nm a v lev r => exact h.2.2.1

theorem AA.level_pos {t : Tree} (h : AA t) (hne : t ≠ .nil) : 0 < t.level := by
  cases t with
  | nil => simp at hne
  | node l nm a v lev r =>
    rcases h with ⟨-, -, h3, -, -⟩
    simp only [level_node]
    omega

theorem AA.rh_false {t : Tree} (h : AA t) (hgc : t.right.level < t.level) :
    rh t = false := by
  cases t with
  | nil => rfl
  | node l nm a v lev r =>
    simp only [rh_node, beq_eq_false_iff_ne, ne_eq]
    simp only [right_node, level_node] at hgc
    omega

theorem AA_skew_self {t : Tree} (h : AA t) : skew t = t := by
  cases t with
  | nil => rfl
  | node l nm a v lev r =>
    apply skew_eq_self
    rcases h with ⟨-, -, h3, -, -⟩
    simp only [left_node, level_node]
    omega

theorem AA_split_self {t : Tree} (h : AA t) : split t = t := by
  cases t with
  | nil => rfl
  | node l nm a v lev r =>
    apply split_eq_self
    rcases h with ⟨-, -, h3, -, h5⟩
    simp only [right_node, level_node]
    omega

theorem AA_adjust_self {t : Tree} (h : AA t) : adjust t = t := by
  cases t with
  | nil => rfl
  | node l nm a v lev r =>
    rw [adjust, if_neg]
    rcases h with ⟨-, -, h3, h4, -⟩
    push_neg
    omega

theorem AA_adjTouch {t : Tree} (h : AA t) : adjTouch t = false := by
  cases t with
  | nil => rfl
  | node l nm a v lev r =>
    rw [adjTouch, if_neg]
    rcases h with ⟨-, -, h3, h4, -⟩
    push_neg
    omega

/-! ## In-order lists, rotations preserve them -/

@[simp] theorem inorder_nil : inorder .nil = [] := rfl

@[simp] theorem inorder_node {l r : Tree} {nm : String} {a v lev : Nat} :
    inorder (.node l nm a v lev r) = inorder l ++ (nm, ⟨a, v⟩) :: inorder r := rfl

@[simp] theorem keys_nil : keys .nil = [] := rfl

@[simp] theorem keys_node {l r : Tree} {nm : String} {a v lev : Nat} :
    keys (.node l nm a v lev r) = keys l ++ nm :: keys r := by
  simp [keys]

theorem skew_inorder (t : Tree) : inorder (skew t) = inorder t := by
  cases t with
  | nil => rfl
  | node l nm a v lev r =>
    cases l with
    | nil => rfl
    | node ll lnm la lv llev lr =>
      by_cases h : llev = lev <;> simp [skew, h]

theorem split_inorder (t : Tree) : inorder (split t) = inorder t := by
  cases t with
  | nil => rfl
  | node l nm a v lev r =>
    cases r with
    | nil => rfl
    | node rl rnm ra rv rlev rr =>
      by_cases h : rr.level = lev <;> simp [split, h]

theorem setLevel_inorder (t : Tree) (k : Nat) : inorder (t.setLevel k) = inorder t := by
  cases t <;> rfl

theorem setRight_skew_inorder (t : Tree) : inorder (t.setRight (skew t.right)) = inorder t := by
  cases t with
  | nil => rfl
  | node l nm a v lev r => simp [skew_inorder]

theorem setRight_split_inorder (t : Tree) : inorder (t.setRight (split t.right)) = inorder t := by
  cases t with
  | nil => rfl
  | node l nm a v lev r => simp [split_inorder]

theorem setRight_setRight_skew_inorder (t : Tree) :
    inorder (t.setRight (t.right.setRight (skew t.right.right))) = inorder t := by
  cases t with
  | nil => rfl
  | node l nm a v lev r => simp [setRight_skew_inorder]

theorem adjust_inorder (t : Tree) : inorder (adjust t) = inorder t := by
  cases t with
  | nil => rfl
  | node l nm a v lev r =>
    rw [adjust]
    split
    · rw [setRight_split_inorder, split_inorder, setRight_setRight_skew_inorder,
        setRight_skew_inorder, skew_inorder]
      by_cases h : lev - 1 < r.level <;> simp [h, setLevel_inorder]
    · rfl

theorem adjust_keys (t : Tree) : keys (adjust t) = keys t := by
  simp [keys, adjust_inorder]

/-! ## Association-list lemmas -/

theorem findD_eq_none {A : List (String × PropData)} {x : String}
    (h : ∀ p ∈ A, p.1 ≠ x) : findD A x = none := by
  induction A with
  | nil => rfl
  | cons p tl ih =>
    obtain ⟨k, d⟩ := p
    rw [findD, if_neg, ih]
    · intro q hq; exact h q (List.mem_cons_of_mem _ hq)
    · exact fun he => h (k, d) (List.mem_cons_self _ _) (by simp [he.symm])

theorem findD_append_right_none {A B : List (String × PropData)} {x : String}
    (h : findD B x = none) : findD (A ++ B) x = findD A x := by
  induction A with
  | nil => simpa using h
  | cons p tl ih =>
    obtain ⟨k, d⟩ := p
    by_cases he : x = k <;> simp [findD, he, ih]


theorem findD_append_left_none {A B : List (String × PropData)} {x : String}
    (h : ∀ p ∈ A, p.1 ≠ x) : findD (A ++ B) x = findD B x := by
  induction A with
  | nil => rfl
  | cons p tl ih =>
    obtain ⟨k, d⟩ := p
    rw [List.cons_append, findD, if_neg, ih]
    · intro q hq; exact h q (List.mem_cons_of_mem _ hq)
    · exact fun he => h (k, d) (List.mem_cons_self _ _) (by simp [he.symm])

theorem insList_append_lt {A B : List (String × PropData)} {k0 x : String}
    {d : PropData} (h : x < k0) :
    insList (A ++ (k0, d) :: B) x = insList A x ++ (k0, d) :: B := by
  induction A with
  | nil => simp [insList, h]
  | cons p tl ih =>
    obtain ⟨k, d'⟩ := p
    by_cases h1 : x < k
    · simp [insList, h1]
    · by_cases h2 : k < x <;> simp [insList, h1, h2, ih]

theorem insList_append_ge {A B : List (String × PropData)} {x : String}
    (h : ∀ p ∈ A, p.1 < x) : insList (A ++ B) x = A ++ insList B x := by
  induction A with
  | nil => rfl
  | cons p tl ih =>
    obtain ⟨k, d'⟩ := p
    have hk : k < x := h (k, d') (List.mem_cons_self _ _)
    simp only [List.cons_append, insList, if_neg (asymm hk), if_pos hk, List.append_eq]
    rw [ih fun q hq => h q (List.mem_cons_of_mem _ hq)]

theorem insList_mem_keys {A : List (String × PropData)} {x y : String}
    (h : y ∈ (insList A x).map Prod.fst) : y = x ∨ y ∈ A.map Prod.fst := by
  induction A with
  | nil => simp_all [insList]
  | cons p tl ih =>
    obtain ⟨k, d'⟩ := p
    by_cases h1 : x < k
    · simp only [insList, if_pos h1] at h
      simpa using h
    · by_cases h2 : k < x
      · simp only [insList, if_neg h1, if_pos h2, List.map_cons, List.mem_cons] at h ⊢
        rcases h with h | h
        · exact Or.inr (Or.inl h)
        · rcases ih h with h | h
          · exact Or.inl h
          · exact Or.inr (Or.inr h)
      · simp only [insList, if_neg h1, if_neg h2] at h
        exact Or.inr h

theorem insList_pairwise {A : List (String × PropData)} {x : String}
    (h : (A.map Prod.fst).Pairwise (· < ·)) :
    ((insList A x).map Prod.fst).Pairwise (· < ·) := by
  induction A with
  | nil => simp [insList]
  | cons p tl ih =>
    obtain ⟨k, d'⟩ := p
    simp only [List.map_cons, List.pairwise_cons] at h
    obtain ⟨hk, htl⟩ := h
    by_cases h1 : x < k
    · simp only [insList, if_pos h1, List.map_cons, List.pairwise_cons]
      refine ⟨?_, ?_⟩
      · intro y hy
        simp only [List.mem_cons] at hy
        rcases hy with rfl | hy
        · exact h1
        · exact h1.trans (hk y hy)
      · exact ⟨hk, htl⟩
    · by_cases h2 : k < x
      · simp only [insList, if_neg h1, if_pos h2, List.map_cons, List.pairwise_cons]
        refine ⟨?_, ih htl⟩
        intro y hy
        rcases insList_mem_keys hy with rfl | hy
        · exact h2
        · exact hk y hy
      · simp only [insList, if_neg h1, if_neg h2, List.map_cons, List.pairwise_cons]
        exact ⟨hk, htl⟩

theorem delList_eq_self {A : List (String × PropData)} {x : String}
    (h : ∀ p ∈ A, p.1 ≠ x) : delList A x = A := by
  induction A with
  | nil => rfl
  | cons p tl ih =>
    obtain ⟨k, d'⟩ := p
    rw [delList, if_neg (h (k, d') (List.mem_cons_self _ _)), ih]
    intro q hq; exact h q (List.mem_cons_of_mem _ hq)

theorem delList_append_left {A C : List (String × PropData)} {x : String}
    (h : ∀ p ∈ C, p.1 ≠ x) : delList (A ++ C) x = delList A x ++ C := by
  induction A with
  | nil => simp [delList, delList_eq_self h]
  | cons p tl ih =>
    obtain ⟨k, d'⟩ := p
    by_cases he : k = x <;> simp [delList, he, ih]

theorem delList_append_right {A B : List (String × PropData)} {x : String}
    (h : ∀ p ∈ A, p.1 ≠ x) : delList (A ++ B) x = A ++ delList B x := by
  induction A with
  | nil => rfl
  | cons p tl ih =>
    obtain ⟨k, d'⟩ := p
    rw [List.cons_append, delList, if_neg (h (k, d') (List.mem_cons_self _ _)), ih]
    · rfl
    · intro q hq; exact h q (List.mem_cons_of_mem _ hq)

theorem delList_sublist (A : List (String × PropData)) (x : String) :
    (delList A x).Sublist A := by
  induction A with
  | nil => simp [delList]
  | cons p tl ih =>
    obtain ⟨k, d'⟩ := p
    by_cases he : k = x
    · simp [delList, he]
    · simpa [delList, he] using ih

/-! ## Sortedness of the in-order list -/

theorem Ordered_nil : Ordered .nil := by simp [Ordered]

theorem Ordered_node_iff {l r : Tree} {nm : String} {a v lev : Nat} :
    Ordered (.node l nm a v lev r) ↔
      Ordered l ∧ Ordered r ∧ (∀ k ∈ keys l, k < nm) ∧ (∀ k ∈ keys r, nm < k) := by
  constructor
  · intro h
    rw [Ordered, keys_node, List.pairwise_append] at h
    obtain ⟨h1, h2, h3⟩ := h
    rw [List.pairwise_cons] at h2
    refine ⟨h1, h2.2, fun k hk => h3 k hk nm (List.mem_cons_self _ _), h2.1⟩
  · rintro ⟨h1, h2, h3, h4⟩
    rw [Ordered, keys_node, List.pairwise_append]
    refine ⟨h1, List.pairwise_cons.mpr ⟨h4, h2⟩, ?_⟩
    intro k hk k' hk'
    rcases List.mem_cons.mp hk' with rfl | hk'
    · exact h3 k hk
    · exact (h3 k hk).trans (h4 k' hk')

theorem lookup_eq_findD {t : Tree} (h : Ordered t) (x : String) :
    lookup t x = findD (inorder t) x := by
  induction t with
  | nil => rfl
  | node l nm a v lev r ihl ihr =>
    rw [Ordered_node_iff] at h
    obtain ⟨hol, hor, hbl, hbr⟩ := h
    rw [lookup, inorder_node]
    by_cases h1 : x < nm
    · rw [if_pos h1, ihl hol, findD_append_right_none]
      rw [findD, if_neg (ne_of_lt h1)]
      apply findD_eq_none
      intro p hp
      have hgt := hbr p.1 (by simp [keys]; exact ⟨p.2, hp⟩)
      exact ne_of_gt (h1.trans hgt)
    · by_cases h2 : nm < x
      · rw [if_neg h1, if_pos h2, ihr hor, findD_append_left_none, findD,
          if_neg (ne_of_gt h2)]
        intro p hp
        have hlt := hbl p.1 (by simp [keys]; exact ⟨p.2, hp⟩)
        exact ne_of_lt (hlt.trans h2)
      · have hx : x = nm := le_antisymm (not_lt.mp h2) (not_lt.mp h1)
        rw [if_neg h1, if_neg h2, findD_append_left_none, findD, if_pos hx]
        intro p hp
        have hlt := hbl p.1 (by simp [keys]; exact ⟨p.2, hp⟩)
        exact ne_of_lt (lt_of_lt_of_eq hlt hx.symm)

/-! ## Insert, delete, writeRec: refinement to list operations -/

theorem insert_snd (t : Tree) (x : String) : (insert t x).2 = (lookup t x).isNone := by
  induction t with
  | nil => rfl
  | node l nm a v lev r ihl ihr =>
    rw [insert, lookup]
    by_cases h1 : x < nm
    · simpa [h1] using ihl
    · by_cases h2 : nm < x <;> simp [h1, h2, ihr]

theorem insert_inorder {t : Tree} (h : Ordered t) (x : String) :
    inorder (insert t x).1 = insList (inorder t) x := by
  induction t with
  | nil => rfl
  | node l nm a v lev r ihl ihr =>
    rw [Ordered_node_iff] at h
    obtain ⟨hol, hor, hbl, hbr⟩ := h
    rw [insert, inorder_node]
    by_cases h1 : x < nm
    · rw [if_pos h1]
      simp only [split_inorder, skew_inorder, inorder_node]
      rw [ihl hol, insList_append_lt h1]
    · by_cases h2 : nm < x
      · rw [if_neg h1, if_pos h2]
        simp only [split_inorder, skew_inorder, inorder_node]
        rw [ihr hor]
        have hall : ∀ p ∈ inorder l ++ [((nm : String), (⟨a, v⟩ : PropData))], p.1 < x := by
          intro p hp
          rcases List.mem_append.mp hp with hp | hp
          · exact (hbl p.1 (by simp [keys]; exact ⟨p.2, hp⟩)).trans h2
          · simp only [List.mem_singleton] at hp
            rw [hp]
            exact h2
        have hstep : insList (inorder l ++ (nm, ⟨a, v⟩) :: inorder r) x
            = inorder l ++ (nm, ⟨a, v⟩) :: insList (inorder r) x := by
          calc insList (inorder l ++ (nm, ⟨a, v⟩) :: inorder r) x
              = insList ((inorder l ++ [(nm, ⟨a, v⟩)]) ++ inorder r) x := by simp
            _ = (inorder l ++ [(nm, ⟨a, v⟩)]) ++ insList (inorder r) x := insList_append_ge hall
            _ = inorder l ++ (nm, ⟨a, v⟩) :: insList (inorder r) x := by simp
        rw [hstep]
      · have hx : x = nm := le_antisymm (not_lt.mp h2) (not_lt.mp h1)
        rw [if_neg h1, if_neg h2, inorder_node]
        subst hx
        have hall : ∀ p ∈ inorder l, p.1 < x := fun p hp =>
          hbl p.1 (by simp [keys]; exact ⟨p.2, hp⟩)
        rw [insList_append_ge hall, insList, if_neg (lt_irrefl x), if_neg (lt_irrefl x)]

theorem minRec_head {t : Tree} (hne : t ≠ .nil) :
    ∃ tl, inorder t = ((minRec t).1, ⟨(minRec t).2.1, (minRec t).2.2⟩) :: tl := by
  induction t with
  | nil => simp at hne
  | node l nm a v lev r ihl ihr =>
    cases l with
    | nil => exact ⟨inorder r, by simp [minRec]⟩
    | node ll lnm la lv llev lr =>
      obtain ⟨tl, htl⟩ := ihl (by simp)
      refine ⟨tl ++ (nm, ⟨a, v⟩) :: inorder r, ?_⟩
      rw [inorder_node, htl, minRec]
      simp

theorem delete_inorder (t : Tree) :
    Ordered t → ∀ x, inorder (delete t x) = delList (inorder t) x := by
  induction t with
  | nil => intro _ _; rfl
  | node l nm a v lev r ihl ihr =>
    intro h x
    have h0 := h
    rw [Ordered_node_iff] at h0
    obtain ⟨hol, hor, hbl, hbr⟩ := h0
    rw [delete, inorder_node]
    by_cases h1 : x < nm
    · rw [if_pos h1, adjust_inorder, inorder_node, ihl hol x]
      rw [delList_append_left]
      intro p hp
      rcases List.mem_cons.mp hp with rfl | hp
      · exact ne_of_gt h1
      · exact ne_of_gt (h1.trans (hbr p.1 (by simp [keys]; exact ⟨p.2, hp⟩)))
    · by_cases h2 : nm < x
      · rw [if_neg h1, if_pos h2, adjust_inorder, inorder_node, ihr hor x]
        rw [delList_append_right, delList, if_neg (ne_of_lt h2)]
        intro p hp
        exact ne_of_lt ((hbl p.1 (by simp [keys]; exact ⟨p.2, hp⟩)).trans h2)
      · have hx : x = nm := le_antisymm (not_lt.mp h2) (not_lt.mp h1)
        subst hx
        rw [if_neg h1, if_neg h2]
        have hlnex : ∀ p ∈ inorder l, p.1 ≠ x := fun p hp =>
          ne_of_lt (hbl p.1 (by simp [keys]; exact ⟨p.2, hp⟩))
        by_cases hL : l = .nil
        · subst hL
          rw [if_pos rfl, adjust_inorder]
          simp [delList]
        · rw [if_neg hL]
          by_cases hR : r = .nil
          · subst hR
            rw [if_pos rfl, adjust_inorder]
            rw [delList_append_right hlnex]
            simp [delList]
          · rw [if_neg hR, adjust_inorder, inorder_node, ihr hor (minRec r).1]
            obtain ⟨tl, htl⟩ := minRec_head hR
            rw [htl, delList, if_pos rfl, delList_append_right hlnex, delList, if_pos rfl]

theorem writeRec_lookup (t : Tree) (x : String) (a v : Nat) (y : String) :
    lookup (writeRec t x a v) y =
      if y = x then (lookup t x).map (fun _ => ⟨a, v⟩) else lookup t y := by
  induction t with
  | nil => simp [writeRec, lookup]
  | node l nm a0 v0 lev r ihl ihr =>
    rw [writeRec]
    by_cases h1 : x < nm
    · rw [if_pos h1]
      by_cases hy : y = x
      · subst hy
        simp [lookup, h1, ihl]
      · rw [if_neg hy, lookup, lookup]
        by_cases g1 : y < nm
        · simp [g1, ihl, hy]
        · simp [g1]
    · by_cases h2 : nm < x
      · rw [if_neg h1, if_pos h2]
        by_cases hy : y = x
        · subst hy
          simp [lookup, h2, not_lt.mpr (le_of_lt h2), not_lt_of_gt h2, ihr]
        · rw [if_neg hy, lookup, lookup]
          by_cases g1 : y < nm
          · simp [g1]
          · by_cases g2 : nm < y <;> simp [g1, g2, ihr, hy]
      · have hx : x = nm := le_antisymm (not_lt.mp h2) (not_lt.mp h1)
        subst hx
        rw [if_neg h1, if_neg h2]
        by_cases hy : y = x
        · subst hy
          simp [lookup]
        · rw [if_neg hy, lookup, lookup]
          rcases lt_trichotomy y x with g | g | g
          · simp [g]
          · exact absurd g hy
          · simp [asymm g, g]

theorem writeRec_keys (t : Tree) (x : String) (a v : Nat) :
    keys (writeRec t x a v) = keys t := by
  induction t with
  | nil => rfl
  | node l nm a0 v0 lev r ihl ihr =>
    rw [writeRec]
    by_cases h1 : x < nm
    · simp [h1, ihl]
    · by_cases h2 : nm < x <;> simp [h1, h2, ihr]

theorem writeRec_level (t : Tree) (x : String) (a v : Nat) :
    (writeRec t x a v).level = t.level := by
  cases t with
  | nil => rfl
  | node l nm a0 v0 lev r =>
    rw [writeRec]
    by_cases h1 : x < nm
    · simp [h1]
    · by_cases h2 : nm < x <;> simp [h1, h2]

theorem writeRec_AA {t : Tree} (h : AA t) (x : String) (a v : Nat) :
    AA (writeRec t x a v) := by
  induction t with
  | nil => exact h
  | node l nm a0 v0 lev r ihl ihr =>
    obtain ⟨h1, h2, h3, h4, h5⟩ := h
    rw [writeRec]
    by_cases g1 : x < nm
    · rw [if_pos g1]
      exact ⟨ihl h1, h2, by rw [writeRec_level]; exact h3, h4, h5⟩
    · by_cases g2 : nm < x
      · rw [if_neg g1, if_pos g2]
        refine ⟨h1, ihr h2, h3, ?_, ?_⟩
        · rw [writeRec_level]; exact h4
        · cases r with
          | nil => simpa using h5
          | node rl rnm ra rv rlev rr =>
            rw [writeRec]
            by_cases g3 : x < rnm
            · simpa [g3] using h5
            · by_cases g4 : rnm < x
              · simp only [if_neg g3, if_pos g4, right_node]
                rw [writeRec_level]
                simpa using h5
              · simpa [g3, g4] using h5
      · rw [if_neg g1, if_neg g2]
        exact ⟨h1, h2, h3, h4, h5⟩

theorem Ordered_writeRec {t : Tree} (h : Ordered t) (x : String) (a v : Nat) :
    Ordered (writeRec t x a v) := by
  rw [Ordered, writeRec_keys]
  exact h

theorem Ordered_insert {t : Tree} (h : Ordered t) (x : String) :
    Ordered (insert t x).1 := by
  rw [Ordered, keys, insert_inorder h]
  exact insList_pairwise h

theorem Ordered_delete {t : Tree} (h : Ordered t) (x : String) :
    Ordered (delete t x) := by
  rw [Ordered, keys, delete_inorder t h x]
  exact List.Pairwise.sublist ((delList_sublist _ _).map Prod.fst) h

/-! ## AA invariant: insertion -/

theorem insert_eq_lt {l r : Tree} {nm x : String} {a v lev : Nat} (h1 : x < nm) :
    insert (.node l nm a v lev r) x =
      (split (skew (.node (insert l x).1 nm a v lev r)), (insert l x).2) := by
  simp [insert, h1]

theorem insert_eq_gt {l r : Tree} {nm x : String} {a v lev : Nat} (h1 : ¬x < nm)
    (h2 : nm < x) :
    insert (.node l nm a v lev r) x =
      (split (skew (.node l nm a v lev (insert r x).1)), (insert r x).2) := by
  simp [insert, h1, h2]

theorem insert_eq_found {l r : Tree} {nm x : String} {a v lev : Nat} (h1 : ¬x < nm)
    (h2 : ¬nm < x) :
    insert (.node l nm a v lev r) x = (.node l nm a v lev r, false) := by
  simp [insert, h1, h2]

/-- Invariant preservation and level evolution of `insert`: the level is
unchanged, or it grows by one — and then the input was right-horizontal at the
root (or the empty tree) and the output is not. -/
theorem insert_AA (t : Tree) (x : String) (h : AA t) :
    AA (insert t x).1 ∧
      ((insert t x).1.level = t.level ∨
        ((insert t x).1.level = t.level + 1 ∧ (rh t = true ∨ t = .nil) ∧
          rh (insert t x).1 = false)) := by
  induction t with
  | nil =>
    refine ⟨⟨trivial, trivial, rfl, Or.inr rfl, Nat.zero_lt_one⟩, Or.inr ⟨rfl, Or.inr rfl, ?_⟩⟩
    simp [insert, rh]
  | node l nm a v lev r ihl ihr =>
    obtain ⟨hAl, hAr, hll, hrl, hgc⟩ := h
    by_cases h1 : x < nm
    · rw [insert_eq_lt h1]
      obtain ⟨hAl', hcase⟩ := ihl hAl
      rcases hcase with hsame | ⟨hraise, -, hrh'⟩
      · -- left level unchanged: both rotations are no-ops
        rw [skew_eq_self (.node (insert l x).1 nm a v lev r)
            (by show (insert l x).1.level ≠ lev; omega),
          split_eq_self (.node (insert l x).1 nm a v lev r)
            (by show r.right.level ≠ lev; omega)]
        refine ⟨⟨hAl', hAr, ?_, hrl, hgc⟩, Or.inl rfl⟩
        show (insert l x).1.level + 1 = lev
        omega
      · -- left level raised to lev: skew fires
        rcases hl' : (insert l x).1 with _ | ⟨l'l, l'nm, l'a, l'v, l'lev, l'r⟩
        · rw [hl'] at hraise
          simp only [level_nil] at hraise
          omega
        · rw [hl'] at hAl' hraise hrh'
          replace hraise : l'lev = l.level + 1 := hraise
          have hleq : l'lev = lev := by omega
          subst hleq
          obtain ⟨hA1, hA2, hA3, hA4, hA5⟩ := hAl'
          replace hrh' : (l'r.level == l'lev) = false := hrh'
          rw [beq_eq_false_iff_ne] at hrh'
          have hl'r : l'r.level + 1 = l'lev := by
            rcases hA4 with h | h
            · exact absurd h hrh'
            · exact h
          rw [skew_fire]
          by_cases hsplit : r.level = l'lev
          · -- the old right link was horizontal: split fires and raises
            rw [split_fire hsplit]
            refine ⟨⟨⟨hA1, hA2, hA3, Or.inr hl'r, hA5⟩, hAr, rfl,
              Or.inr (by show r.level + 1 = l'lev + 1; omega),
              by show r.right.level < l'lev + 1; omega⟩, ?_⟩
            refine Or.inr ⟨rfl, Or.inl ?_, ?_⟩
            · show (r.level == l'lev) = true
              simp [hsplit]
            · show (r.level == l'lev + 1) = false
              rw [beq_eq_false_iff_ne]
              omega
          · -- no split: a right-horizontal link to the rotated node remains
            rw [split_eq_self (.node l'l l'nm l'a l'v l'lev (.node l'r nm a v l'lev r))
              (show r.level ≠ l'lev from hsplit)]
            refine ⟨⟨hA1, ⟨hA2, hAr, hl'r, hrl, hgc⟩, hA3, Or.inl rfl, ?_⟩, Or.inl rfl⟩
            show r.level < l'lev
            omega
    · by_cases h2 : nm < x
      · rw [insert_eq_gt h1 h2]
        obtain ⟨hAr', hcase⟩ := ihr hAr
        rw [skew_eq_self (.node l nm a v lev (insert r x).1)
          (by show l.level ≠ lev; omega)]
        rcases hcase with hsame | ⟨hraise, hpre, hrh'⟩
        · -- right level unchanged
          by_cases hsplit : (insert r x).1.right.level = lev
          · -- the new right child became right-horizontal at the node's level:
            -- split fires and raises the node
            rcases hr' : (insert r x).1 with _ | ⟨r'l, r'nm, r'a, r'v, r'lev, r'r⟩
            · rw [hr'] at hsplit
              simp only [right_nil, level_nil] at hsplit
              omega
            · rw [hr'] at hAr' hsame hsplit
              obtain ⟨hB1, hB2, hB3, hB4, hB5⟩ := hAr'
              replace hsame : r'lev = r.level := hsame
              replace hsplit : r'r.level = lev := hsplit
              have hr'lev : r'lev = lev := by
                rcases hrl with h | h
                · omega
                · rcases hB4 with h' | h' <;> omega
              rw [split_fire hsplit]
              have hrle := hB1.right_le
              refine ⟨⟨⟨hAl, hB1, hll, Or.inr (by show r'l.level + 1 = lev; omega),
                by show r'l.right.level < lev; omega⟩,
                hB2, by show lev + 1 = r'lev + 1; omega,
                Or.inr (by show r'r.level + 1 = r'lev + 1; omega),
                by show r'r.right.level < r'lev + 1; omega⟩, ?_⟩
              refine Or.inr ⟨by show r'lev + 1 = lev + 1; omega, Or.inl ?_, ?_⟩
              · show (r.level == lev) = true
                rw [beq_iff_eq]
                omega
              · show (r'r.level == r'lev + 1) = false
                rw [beq_eq_false_iff_ne]
                omega
          · -- no split
            rw [split_eq_self (.node l nm a v lev (insert r x).1)
              (show (insert r x).1.right.level ≠ lev from hsplit)]
            have hrle := hAr'.right_le
            refine ⟨⟨hAl, hAr', hll, ?_, ?_⟩, Or.inl rfl⟩
            · show (insert r x).1.level = lev ∨ (insert r x).1.level + 1 = lev
              omega
            · show (insert r x).1.right.level < lev
              omega
        · -- right level raised: impossible from a horizontal right link, so the
          -- raised child sits exactly at the node's level and is not
          -- right-horizontal; no rotation fires
          have hrlev : r.level + 1 = lev := by
            rcases hrl with h | h
            · exfalso
              rcases hpre with hpre | hpre
              · cases hr0 : r with
                | nil =>
                  rw [hr0] at h
                  simp only [level_nil] at h
                  omega
                | node rl0 rnm0 ra0 rv0 rlev0 rr0 =>
                  rw [hr0] at hpre hgc h
                  replace hpre : (rr0.level == rlev0) = true := hpre
                  rw [beq_iff_eq] at hpre
                  replace hgc : rr0.level < lev := hgc
                  replace h : rlev0 = lev := h
                  omega
              · rw [hpre] at h
                simp only [level_nil] at h
                omega
            · exact h
          have hrhne : (insert r x).1.right.level ≠ lev := by
            rcases hr' : (insert r x).1 with _ | ⟨r'l, r'nm, r'a, r'v, r'lev, r'r⟩
            · show Tree.level .nil ≠ lev
              simp only [level_nil]
              omega
            · rw [hr'] at hraise hrh'
              replace hraise : r'lev = r.level + 1 := hraise
              replace hrh' : (r'r.level == r'lev) = false := hrh'
              rw [beq_eq_false_iff_ne] at hrh'
              show r'r.level ≠ lev
              omega
          rw [split_eq_self (.node l nm a v lev (insert r x).1)
            (show (insert r x).1.right.level ≠ lev from hrhne)]
          have hrle := hAr'.right_le
          refine ⟨⟨hAl, hAr', hll, Or.inl (by show (insert r x).1.level = lev; omega),
            by show (insert r x).1.right.level < lev; omega⟩, Or.inl rfl⟩
      · rw [insert_eq_found h1 h2]
        exact ⟨⟨hAl, hAr, hll, hrl, hgc⟩, Or.inl rfl⟩

/-! ## AA invariant: delete rebalancing -/

theorem skew_fire_of {ll lr r : Tree} {lnm nm : String} {la lv llev a v lev : Nat}
    (h : llev = lev) :
    skew (.node (.node ll lnm la lv llev lr) nm a v lev r) =
      .node ll lnm la lv llev (.node lr nm a v lev r) := by
  simp [skew, h]

theorem skew_no_of {l r : Tree} {nm : String} {a v lev : Nat} (h : l.level ≠ lev) :
    skew (.node l nm a v lev r) = .node l nm a v lev r := by
  cases l with
  | nil => rfl
  | node ll lnm la lv llev lr => simp_all [skew, Tree.level]

theorem split_no_of {l r : Tree} {nm : String} {a v lev : Nat} (h : r.right.level ≠ lev) :
    split (.node l nm a v lev r) = .node l nm a v lev r := by
  cases r with
  | nil => rfl
  | node rl rnm ra rv rlev rr => simp_all [split, Tree.right]

theorem skewTouch_pos {l r : Tree} {nm : String} {a v lev : Nat} (h : 0 < lev) :
    skewTouch (.node l nm a v lev r) = false := by
  simp only [skewTouch, Bool.and_eq_false_iff]
  right
  rw [beq_eq_false_iff_ne]
  omega

theorem skewTouch_AA {t : Tree} (h : AA t) : skewTouch t = false := by
  cases t with
  | nil => rfl
  | node l nm a v lev r =>
    apply skewTouch_pos
    have := h.level_pos (by simp)
    simpa using this

theorem splitTouch_pos {t : Tree} (h : 0 < t.level) : splitTouch t = false := by
  cases t with
  | nil => simp at h
  | node l nm a v lev r =>
    simp only [splitTouch, Bool.and_eq_false_iff]
    right
    rw [beq_eq_false_iff_ne]
    simp only [level_node] at h
    omega

/-- The grandchild bound needed for a node whose right child is not allowed to
be horizontal when it sits at the node's level. -/
theorem gc_lt {r : Tree} {lev : Nat} (hr : AA r) (hrh : r.level = lev → rh r = false)
    (hle : r.level ≤ lev) (hpos : 0 < lev) : r.right.level < lev := by
  rcases Nat.lt_or_ge r.level lev with h | h
  · exact lt_of_le_of_lt hr.right_le h
  · have heq : r.level = lev := le_antisymm hle h
    have hf := hrh heq
    cases r with
    | nil =>
      simp only [level_nil] at heq
      omega
    | node rl rnm ra rv rlev rr =>
      replace hf : (rr.level == rlev) = false := hf
      rw [beq_eq_false_iff_ne] at hf
      have := hr.right_le
      simp only [right_node, level_node] at this ⊢
      simp only [level_node] at heq
      omega

/-- The delete rebalancing block restores the AA invariant.  Hypotheses: the
children are AA; the right child may not be right-horizontal when it sits at
the node's level; one child has lost at most one level with respect to an
AA node of level `lev` (left slot at `lev - 1` exactly when the right one
dropped).  Conclusions: the result is AA, its level is `lev` or `lev - 1`, a
right-horizontal result at preserved level means the right child was at `lev`,
and no write of the block changes the sentinel record. -/
theorem adjust_main {l r : Tree} (nm : String) (a v lev : Nat)
    (hl : AA l) (hr : AA r)
    (hrh : r.level = lev → rh r = false)
    (hsh : (l.level + 1 = lev ∧ (r.level = lev ∨ r.level + 1 = lev ∨ r.level + 2 = lev)) ∨
           (l.level + 2 = lev ∧ (r.level = lev ∨ r.level + 1 = lev))) :
    AA (adjust (.node l nm a v lev r)) ∧
      ((adjust (.node l nm a v lev r)).level = lev ∨
        (adjust (.node l nm a v lev r)).level + 1 = lev) ∧
      ((adjust (.node l nm a v lev r)).level = lev →
        rh (adjust (.node l nm a v lev r)) = true → r.level = lev) ∧
      adjTouch (.node l nm a v lev r) = false := by
  have hlev1 : 1 ≤ lev := by rcases hsh with ⟨h, -⟩ | ⟨h, -⟩ <;> omega
  by_cases hdef : l.level + 1 < lev ∨ r.level + 1 < lev
  case neg =>
    have hfin : adjust (.node l nm a v lev r) = .node l nm a v lev r := by
      simp only [adjust]
      rw [if_neg hdef]
    have htch : adjTouch (.node l nm a v lev r) = false := by
      simp only [adjTouch]
      rw [if_neg hdef]
    rw [hfin]
    have hdef' := hdef
    push_neg at hdef'
    refine ⟨⟨hl, hr, by omega, by show r.level = lev ∨ r.level + 1 = lev; omega, ?_⟩,
      Or.inl rfl, fun _ h2 => ?_, htch⟩
    · show r.right.level < lev
      exact gc_lt hr hrh (by omega) (by omega)
    · replace h2 : (r.level == lev) = true := h2
      rwa [beq_iff_eq] at h2
  case pos =>
    have hcase : (l.level + 2 = lev ∧ (r.level = lev ∨ r.level + 1 = lev)) ∨
        (l.level + 1 = lev ∧ r.level + 2 = lev) := by
      rcases hsh with ⟨h1, h2⟩ | ⟨h1, h2⟩ <;> rcases hdef with h | h <;> omega
    simp only [adjust, adjTouch]
    rw [if_pos hdef, if_pos hdef]
    rcases hcase with ⟨hdl, hdlr⟩ | ⟨hdr1, hdr2⟩
    · -- deficit caused by the left child
      have hskA : Tree.level l ≠ lev - 1 := by omega
      rcases r with _ | ⟨rl, rnm, ra, rv, rlev, rr⟩
      · simp only [level_nil] at hdlr
        omega
      obtain ⟨hr1, hr2, hr3, hr4, hr5⟩ := hr
      simp only [level_node] at hdlr
      simp only [level_node] at hrh
      rcases hdlr with hrlev | hrlev
      · -- DL1: right child at the node's level, the clamp fires
        have hrr : rr.level + 1 = lev := by
          have h0 : (rr.level == rlev) = false := hrh hrlev
          rw [beq_eq_false_iff_ne] at h0
          rcases hr4 with h' | h'
          · exact absurd h' h0
          · omega
        rcases rl with _ | ⟨rll, rlnm, rla, rlv, rllev, rlr⟩
        · simp only [level_nil] at hr3
          omega
        replace hr3 : rllev + 1 = rlev := hr3
        obtain ⟨hc1, hc2, hc3, hc4, hc5⟩ := hr1
        have hclamp : lev - 1 <
            (Tree.node (Tree.node rll rlnm rla rlv rllev rlr) rnm ra rv rlev rr).level := by
          simp only [level_node]
          omega
        have hrllev : rllev = lev - 1 := by omega
        have hrle1 := hc1.right_le
        rcases hc4 with hx | hx
        · -- DL1a: the rotated-in node is itself left-horizontal after the skew
          rcases rlr with _ | ⟨pl, pnm, pa, pv, plev, pr⟩
          · simp only [level_nil] at hx
            omega
          replace hx : plev = rllev := hx
          obtain ⟨hd1, hd2, hd3, hd4, hd5⟩ := hc2
          have hplev : plev = lev - 1 := by omega
          have hYlev : (Tree.node pl pnm pa pv plev
              (Tree.node pr rnm ra rv (lev - 1) rr)).level = lev - 1 := by
            simp only [level_node]
            omega
          have hrrp : Tree.level rr = plev := by omega
          simp only [if_pos hclamp, setLevel_node, skew_no_of hskA, right_node,
            skew_fire_of hrllev, setRight_node, skew_fire_of hplev,
            split_fire hYlev, split_fire hrrp]
          have hrle2 := hd1.right_le
          have hrle3 := hr2.right_le
          refine ⟨⟨⟨hl, hc1, by omega, Or.inr (by omega),
              by show rll.right.level < lev - 1; omega⟩,
            ⟨⟨hd1, hd2, hd3, hd4, hd5⟩, hr2, by show plev + 1 = lev - 1 + 1; omega,
              Or.inr (by show rr.level + 1 = lev - 1 + 1; omega),
              by show rr.right.level < lev - 1 + 1; omega⟩,
            by show lev - 1 + 1 = rllev + 1; omega,
            Or.inl (by show lev - 1 + 1 = rllev + 1; omega),
            by show rr.level < rllev + 1; omega⟩,
            Or.inl (by show rllev + 1 = lev; omega),
            fun _ _ => by show rlev = lev; omega, ?_⟩
          simp only [skewTouch, splitTouch, Bool.or_eq_false_iff, Bool.and_eq_false_iff]
          refine ⟨⟨⟨⟨Or.inr ?_, Or.inr ?_⟩, Or.inr ?_⟩, Or.inr ?_⟩, Or.inr ?_⟩ <;>
            (rw [beq_eq_false_iff_ne]; omega)
        · -- DL1b: no second skew
          have hno3 : Tree.level rlr ≠ lev - 1 := by omega
          rcases rr with _ | ⟨rrl, rrnm, rra, rrv, rrlev, rrr⟩
          · simp only [level_nil] at hrr
            omega
          replace hrr : rrlev + 1 = lev := hrr
          obtain ⟨he1, he2, he3, he4, he5⟩ := hr2
          have hZlev : (Tree.node rlr rnm ra rv (lev - 1)
              (Tree.node rrl rrnm rra rrv rrlev rrr)).level = lev - 1 := rfl
          have hrle4 := he1.right_le
          rcases he4 with hy | hy
          · -- DL1b-i: the final split fires
            have hfire : Tree.level rrr = lev - 1 := by omega
            simp only [if_pos hclamp, setLevel_node, skew_no_of hskA, right_node,
              skew_fire_of hrllev, setRight_node, skew_no_of hno3,
              split_fire hZlev, split_fire hfire]
            have hrle5 := he2.right_le
            refine ⟨⟨⟨hl, hc1, by omega, Or.inr (by omega),
                by show rll.right.level < lev - 1; omega⟩,
              ⟨⟨hc2, he1, by omega, Or.inr (by omega),
                  by show rrl.right.level < lev - 1; omega⟩, he2,
                by show lev - 1 + 1 = rrlev + 1; omega,
                Or.inr (by show rrr.level + 1 = rrlev + 1; omega),
                by show rrr.right.level < rrlev + 1; omega⟩,
              by show lev - 1 + 1 = rllev + 1; omega,
              Or.inl (by show rrlev + 1 = rllev + 1; omega),
              by show rrr.level < rllev + 1; omega⟩,
              Or.inl (by show rllev + 1 = lev; omega),
              fun _ _ => by show rlev = lev; omega, ?_⟩
            simp only [skewTouch, splitTouch, Bool.or_eq_false_iff, Bool.and_eq_false_iff]
            refine ⟨⟨⟨⟨Or.inr ?_, Or.inr ?_⟩, Or.inr ?_⟩, Or.inr ?_⟩, Or.inr ?_⟩ <;>
              (rw [beq_eq_false_iff_ne]; omega)
          · -- DL1b-ii: no final split
            have hnof : (Tree.node rrl rrnm rra rrv rrlev rrr).right.level ≠ lev - 1 := by
              simp only [right_node]
              omega
            simp only [if_pos hclamp, setLevel_node, skew_no_of hskA, right_node,
              skew_fire_of hrllev, setRight_node, skew_no_of hno3,
              split_fire hZlev, split_no_of hnof]
            refine ⟨⟨⟨hl, hc1, by omega, Or.inr (by omega),
                by show rll.right.level < lev - 1; omega⟩,
              ⟨hc2, ⟨he1, he2, he3, Or.inr hy, he5⟩, by omega,
                Or.inl (by show rrlev = lev - 1; omega),
                by show rrr.level < lev - 1; omega⟩,
              by show lev - 1 + 1 = rllev + 1; omega,
              Or.inr (by show lev - 1 + 1 = rllev + 1; omega),
              by show rrlev < rllev + 1; omega⟩,
              Or.inl (by show rllev + 1 = lev; omega),
              fun _ _ => by show rlev = lev; omega, ?_⟩
            simp only [skewTouch, splitTouch, Bool.or_eq_false_iff, Bool.and_eq_false_iff]
            refine ⟨⟨⟨⟨Or.inr ?_, Or.inr ?_⟩, Or.inr ?_⟩, Or.inr ?_⟩, Or.inr ?_⟩ <;>
              (rw [beq_eq_false_iff_ne]; omega)
      · -- DL2: right child one below the node, no clamp
        have hnoclamp : ¬(lev - 1 < (Tree.node rl rnm ra rv rlev rr).level) := by
          simp only [level_node]
          omega
        have hnos : Tree.level rl ≠ rlev := by omega
        have hrle6 := hr1.right_le
        have hrle7 := hr2.right_le
        rcases hr4 with hy | hy
        · -- DL2a: split at the root fires
          have hfire : Tree.level rr = lev - 1 := by omega
          simp only [if_neg hnoclamp, skew_no_of hskA, right_node, skew_no_of hnos,
            setRight_node, AA_skew_self hr2, split_fire hfire, AA_split_self hr2]
          refine ⟨⟨⟨hl, hr1, by omega, Or.inr (by omega),
              by show rl.right.level < lev - 1; omega⟩, hr2,
            by show lev - 1 + 1 = rlev + 1; omega,
            Or.inr (by show rr.level + 1 = rlev + 1; omega),
            by show rr.right.level < rlev + 1; omega⟩,
            Or.inl (by show rlev + 1 = lev; omega), ?_, ?_⟩
          · intro h1 h2
            replace h2 : (rr.level == rlev + 1) = true := h2
            rw [beq_iff_eq] at h2
            show rlev = lev
            omega
          · simp only [skewTouch, splitTouch, Bool.or_eq_false_iff, Bool.and_eq_false_iff]
            refine ⟨⟨⟨⟨Or.inr ?_, Or.inr ?_⟩, ?_⟩, Or.inr ?_⟩, ?_⟩
            · rw [beq_eq_false_iff_ne]; omega
            · rw [beq_eq_false_iff_ne]; omega
            · exact skewTouch_AA hr2
            · rw [beq_eq_false_iff_ne]; omega
            · exact splitTouch_pos (by omega)
        · -- DL2b: no split fires, the level drops
          have hnof1 : (Tree.node rl rnm ra rv rlev rr).right.level ≠ lev - 1 := by
            simp only [right_node]
            omega
          have hnof2 : rr.right.level ≠ rlev := by omega
          simp only [if_neg hnoclamp, skew_no_of hskA, right_node, skew_no_of hnos,
            setRight_node, AA_skew_self hr2, split_no_of hnof1, split_no_of hnof2]
          refine ⟨⟨hl, ⟨hr1, hr2, hr3, Or.inr hy, hr5⟩, by omega,
            Or.inl (by show rlev = lev - 1; omega),
            by show rr.level < lev - 1; omega⟩,
            Or.inr (by show lev - 1 + 1 = lev; omega), ?_, ?_⟩
          · intro h1 _
            replace h1 : lev - 1 = lev := h1
            show rlev = lev
            omega
          · simp only [skewTouch, splitTouch, Bool.or_eq_false_iff, Bool.and_eq_false_iff]
            refine ⟨⟨⟨⟨Or.inr ?_, Or.inr ?_⟩, ?_⟩, Or.inr ?_⟩, Or.inr ?_⟩
            · rw [beq_eq_false_iff_ne]; omega
            · rw [beq_eq_false_iff_ne]; omega
            · exact skewTouch_AA hr2
            · rw [beq_eq_false_iff_ne]; omega
            · rw [beq_eq_false_iff_ne]; omega
    · -- deficit caused by the right child: the root skew fires
      have hnoclamp : ¬(lev - 1 < Tree.level r) := by omega
      rcases l with _ | ⟨ll, lnm, la, lv, llev, lr⟩
      · simp only [level_nil] at hdr1
        omega
      replace hdr1 : llev + 1 = lev := hdr1
      obtain ⟨hb1, hb2, hb3, hb4, hb5⟩ := hl
      have hllev : llev = lev - 1 := by omega
      have hrle0 := hr.right_le
      rcases hb4 with hy | hy
      · -- DRa: the left child is right-horizontal; the second skew fires
        rcases lr with _ | ⟨sl, snm, sa, sv, slev, sr⟩
        · simp only [level_nil] at hy
          omega
        replace hy : slev = llev := hy
        obtain ⟨hg1, hg2, hg3, hg4, hg5⟩ := hb2
        replace hb5 : Tree.level sr < llev := hb5
        have hslev : slev = lev - 1 := by omega
        have hsr : Tree.level sr + 1 = slev := by
          rcases hg4 with hz | hz
          · omega
          · exact hz
        have hno3 : Tree.level sr ≠ lev - 1 := by omega
        have hW2 : (Tree.node sr nm a v (lev - 1) r).level = llev := by
          simp only [level_node]
          omega
        have hnof : r.right.level ≠ lev - 1 := by omega
        have hrle8 := hg1.right_le
        simp only [if_neg hnoclamp, skew_fire_of hllev, right_node, skew_fire_of hslev,
          setRight_node, skew_no_of hno3, split_fire hW2, split_no_of hnof]
        refine ⟨⟨⟨hb1, hg1, hb3, Or.inr (by omega),
            by show sl.right.level < llev; omega⟩,
          ⟨hg2, hr, by show Tree.level sr + 1 = lev - 1; omega,
            Or.inr (by show Tree.level r + 1 = lev - 1; omega),
            by show r.right.level < lev - 1; omega⟩,
          by show llev + 1 = slev + 1; omega,
          Or.inr (by show lev - 1 + 1 = slev + 1; omega),
          by show Tree.level r < slev + 1; omega⟩,
          Or.inl (by show slev + 1 = lev; omega), ?_, ?_⟩
        · intro _ h2
          replace h2 : ((lev - 1 : Nat) == slev + 1) = true := h2
          rw [beq_iff_eq] at h2
          show Tree.level r = lev
          omega
        · simp only [skewTouch, splitTouch, Bool.or_eq_false_iff, Bool.and_eq_false_iff]
          refine ⟨⟨⟨⟨Or.inr ?_, Or.inr ?_⟩, Or.inr ?_⟩, Or.inr ?_⟩, Or.inr ?_⟩ <;>
            (rw [beq_eq_false_iff_ne]; omega)
      · -- DRb: no second skew, the level drops by one
        have hno2 : Tree.level lr ≠ lev - 1 := by omega
        have hnof1 : (Tree.node lr nm a v (lev - 1) r).right.level ≠ llev := by
          simp only [right_node]
          omega
        have hnof2 : Tree.level r.right ≠ lev - 1 := by omega
        simp only [if_neg hnoclamp, skew_fire_of hllev, right_node, skew_no_of hno2,
          setRight_node, AA_skew_self hr, split_no_of hnof1, split_no_of hnof2]
        refine ⟨⟨hb1, ⟨hb2, hr, by show Tree.level lr + 1 = lev - 1; omega,
            Or.inr (by show Tree.level r + 1 = lev - 1; omega),
            by show r.right.level < lev - 1; omega⟩, hb3,
          Or.inl (by show lev - 1 = llev; omega),
          by show Tree.level r < llev; omega⟩,
          Or.inr (by show llev + 1 = lev; omega), ?_, ?_⟩
        · intro h1 _
          replace h1 : llev = lev := h1
          show Tree.level r = lev
          omega
        · simp only [skewTouch, splitTouch, Bool.or_eq_false_iff, Bool.and_eq_false_iff]
          refine ⟨⟨⟨⟨Or.inr ?_, Or.inr ?_⟩, ?_⟩, Or.inr ?_⟩, Or.inr ?_⟩
          · rw [beq_eq_false_iff_ne]; omega
          · rw [beq_eq_false_iff_ne]; omega
          · exact skewTouch_AA hr
          · rw [beq_eq_false_iff_ne]; omega
          · rw [beq_eq_false_iff_ne]; omega

/-- Postcondition of `delete`: the AA invariant holds, the level drops by at
most one, a right-horizontal result at preserved level means the input was
right-horizontal, and no write along the delete changes the sentinel. -/
theorem del_main (t : Tree) : ∀ x, AA t →
    AA (delete t x) ∧
      ((delete t x).level = t.level ∨ (delete t x).level + 1 = t.level) ∧
      ((delete t x).level = t.level → rh (delete t x) = true → rh t = true) ∧
      delTouch t x = false := by
  induction t with
  | nil => exact fun x _ => ⟨trivial, Or.inl rfl, fun _ h2 => h2, rfl⟩
  | node l nm a v lev r ihl ihr =>
    intro x h
    obtain ⟨hAl, hAr, hll, hrl, hgc⟩ := h
    simp only [delete, delTouch, level_node, rh_node]
    by_cases h1 : x < nm
    · simp only [if_pos h1]
      obtain ⟨ihA, ihLvl, ihRh, ihT⟩ := ihl x hAl
      obtain ⟨c1, c2, c3, c4⟩ := adjust_main nm a v lev ihA hAr
        (fun hre => hAr.rh_false (by omega))
        (by rcases ihLvl with h | h
            · exact Or.inl ⟨by omega, hrl.imp id Or.inl⟩
            · exact Or.inr ⟨by omega, hrl⟩)
      refine ⟨c1, c2, ?_, by simp [ihT, c4]⟩
      intro g1 g2
      rw [beq_iff_eq]
      exact c3 g1 g2
    · by_cases h2 : nm < x
      · simp only [if_neg h1, if_pos h2]
        obtain ⟨ihA, ihLvl, ihRh, ihT⟩ := ihr x hAr
        have hrh2 : (delete r x).level = lev → rh (delete r x) = false := by
          intro hre
          have hr1 : r.level = lev ∧ (delete r x).level = r.level := by
            rcases ihLvl with h | h <;> rcases hrl with h' | h' <;>
              exact ⟨by omega, by omega⟩
          have hf : rh r = false := hAr.rh_false (by omega)
          cases hb : rh (delete r x) with
          | false => rfl
          | true => exact absurd (ihRh hr1.2 hb) (by rw [hf]; simp)
        obtain ⟨c1, c2, c3, c4⟩ := adjust_main nm a v lev hAl ihA hrh2
          (Or.inl ⟨hll, by rcases ihLvl with h | h <;> rcases hrl with h' | h' <;> omega⟩)
        refine ⟨c1, c2, ?_, by simp [ihT, c4]⟩
        intro g1 g2
        rw [beq_iff_eq]
        have := c3 g1 g2
        rcases ihLvl with h | h <;> rcases hrl with h' | h' <;> omega
      · simp only [if_neg h1, if_neg h2]
        by_cases hL : l = .nil
        · simp only [if_pos hL]
          subst hL
          simp only [level_nil] at hll
          rw [AA_adjust_self hAr]
          refine ⟨hAr, hrl, ?_, AA_adjTouch hAr⟩
          intro g1 _
          rw [beq_iff_eq]
          omega
        · simp only [if_neg hL]
          by_cases hR : r = .nil
          · exfalso
            subst hR
            have := hAl.level_pos hL
            simp only [level_nil] at hrl
            rcases hrl with h' | h' <;> omega
          · simp only [if_pos rfl, if_neg hR]
            obtain ⟨ihA, ihLvl, ihRh, ihT⟩ := ihr (minRec r).1 hAr
            have hrh2 : (delete r (minRec r).1).level = lev →
                rh (delete r (minRec r).1) = false := by
              intro hre
              have hr1 : r.level = lev ∧ (delete r (minRec r).1).level = r.level := by
                rcases ihLvl with h | h <;> rcases hrl with h' | h' <;>
                  exact ⟨by omega, by omega⟩
              have hf : rh r = false := hAr.rh_false (by omega)
              cases hb : rh (delete r (minRec r).1) with
              | false => rfl
              | true => exact absurd (ihRh hr1.2 hb) (by rw [hf]; simp)
            obtain ⟨c1, c2, c3, c4⟩ := adjust_main (minRec r).1 (minRec r).2.1 (minRec r).2.2 lev
              hAl ihA hrh2
              (Or.inl ⟨hll, by rcases ihLvl with h | h <;> rcases hrl with h' | h' <;> omega⟩)
            refine ⟨c1, c2, ?_, by simp [ihT, c4]⟩
            intro g1 g2
            rw [beq_iff_eq]
            have := c3 g1 g2
            rcases ihLvl with h | h <;> rcases hrl with h' | h' <;> omega

/-! ## findD / insList / delList membership lemmas -/

theorem findD_isSome {A : List (String × PropData)} {y : String} :
    (findD A y).isSome = true ↔ y ∈ A.map Prod.fst := by
  induction A with
  | nil => simp [findD]
  | cons p tl ih =>
    obtain ⟨k, d⟩ := p
    by_cases he : y = k <;> simp [findD, he, ih]

theorem findD_insList_self {A : List (String × PropData)} {x : String} :
    (findD (insList A x) x).isSome = true := by
  induction A with
  | nil => simp [insList, findD]
  | cons p tl ih =>
    obtain ⟨k, d⟩ := p
    by_cases h1 : x < k
    · simp [insList, h1, findD]
    · by_cases h2 : k < x
      · have : x ≠ k := fun he => absurd h2 (by rw [he]; exact lt_irrefl k)
        simp [insList, h1, h2, findD, this, ih]
      · have : x = k := le_antisymm (not_lt.mp h2) (not_lt.mp h1)
        simp [insList, h1, h2, findD, this]

theorem findD_insList_ne {A : List (String × PropData)} {x y : String} (hy : y ≠ x) :
    findD (insList A x) y = findD A y := by
  induction A with
  | nil => simp [insList, findD, hy]
  | cons p tl ih =>
    obtain ⟨k, d⟩ := p
    by_cases h1 : x < k
    · simp [insList, h1, findD, hy]
    · by_cases h2 : k < x
      · simp [insList, h1, h2, findD, ih]
      · simp [insList, h1, h2]

theorem findD_delList_self {A : List (String × PropData)} {x : String}
    (h : (A.map Prod.fst).Pairwise (· < ·)) : findD (delList A x) x = none := by
  induction A with
  | nil => rfl
  | cons p tl ih =>
    obtain ⟨k, d⟩ := p
    simp only [List.map_cons, List.pairwise_cons] at h
    by_cases he : k = x
    · rw [delList, if_pos he]
      apply findD_eq_none
      intro q hq he2
      have := h.1 q.1 (List.mem_map_of_mem Prod.fst hq)
      rw [he, he2] at this
      exact lt_irrefl x this
    · rw [delList, if_neg he, findD, if_neg (fun h2 => he h2.symm), ih h.2]

theorem findD_delList_ne {A : List (String × PropData)} {x y : String} (hy : y ≠ x) :
    findD (delList A x) y = findD A y := by
  induction A with
  | nil => rfl
  | cons p tl ih =>
    obtain ⟨k, d⟩ := p
    by_cases he : k = x
    · rw [delList, if_pos he, findD, if_neg (by rw [he]; exact hy)]
    · rw [delList, if_neg he, findD, findD, ih]

theorem mem_insList_keys_iff {A : List (String × PropData)} {x y : String} :
    y ∈ (insList A x).map Prod.fst ↔ y = x ∨ y ∈ A.map Prod.fst := by
  constructor
  · exact insList_mem_keys
  · intro h
    rcases h with rfl | h
    · rw [← findD_isSome]
      exact findD_insList_self
    · induction A with
      | nil => simp at h
      | cons p tl ih =>
        obtain ⟨k, d⟩ := p
        simp only [List.map_cons, List.mem_cons] at h
        by_cases h1 : x < k
        · simp only [insList, if_pos h1, List.map_cons, List.mem_cons]
          tauto
        · by_cases h2 : k < x
          · simp only [insList, if_neg h1, if_pos h2, List.map_cons, List.mem_cons] at ih ⊢
            tauto
          · simp only [insList, if_neg h1, if_neg h2, List.map_cons, List.mem_cons]
            exact h

/-! ## Tree-level membership and lookup lemmas -/

theorem keys_nodup {t : Tree} (h : Ordered t) : (keys t).Nodup :=
  h.imp ne_of_lt

theorem lookup_isSome_iff {t : Tree} (h : Ordered t) (y : String) :
    (lookup t y).isSome = true ↔ y ∈ keys t := by
  rw [lookup_eq_findD h, keys]
  exact findD_isSome

theorem lookup_insert {t : Tree} (h : Ordered t) (x y : String) :
    lookup (insert t x).1 y =
      if y = x then findD (insList (inorder t) x) x else lookup t y := by
  have h1 : Ordered (insert t x).1 := Ordered_insert h x
  rw [lookup_eq_findD h1, insert_inorder h]
  by_cases he : y = x
  · rw [if_pos he, he]
  · rw [if_neg he, findD_insList_ne he, lookup_eq_findD h]

theorem lookup_delete {t : Tree} (h : Ordered t) (x y : String) :
    lookup (delete t x) y = if y = x then none else lookup t y := by
  have h1 : Ordered (delete t x) := Ordered_delete h x
  rw [lookup_eq_findD h1, delete_inorder t h x]
  by_cases he : y = x
  · rw [if_pos he, he]
    exact findD_delList_self h
  · rw [if_neg he, findD_delList_ne he, lookup_eq_findD h]

theorem keys_delete {t : Tree} (h : Ordered t) (x y : String) :
    y ∈ keys (delete t x) ↔ y ∈ keys t ∧ y ≠ x := by
  rw [← lookup_isSome_iff (Ordered_delete h x), lookup_delete h x y]
  by_cases he : y = x
  · simp [he]
  · rw [if_neg he, lookup_isSome_iff h]
    simp [he]

theorem keys_insert {t : Tree} (h : Ordered t) (x y : String) :
    y ∈ keys (insert t x).1 ↔ y = x ∨ y ∈ keys t := by
  rw [keys, insert_inorder h, mem_insList_keys_iff]
  rfl

theorem keys_writeRec_mem (t : Tree) (x : String) (a v : Nat) (y : String) :
    y ∈ keys (writeRec t x a v) ↔ y ∈ keys t := by
  rw [writeRec_keys]

/-! ## delState characterization -/

theorem minRec_mem {t : Tree} (h : t ≠ .nil) : (minRec t).1 ∈ keys t := by
  obtain ⟨tl, htl⟩ := minRec_head h
  rw [keys, htl]
  simp

theorem delState_min (t : Tree) : ∀ st, Ordered t → t ≠ .nil →
    delState t (minRec t).1 st = unlinkRec st (minRec t).1 := by
  induction t with
  | nil => intro st _ h; simp at h
  | node l nm a v lev r ihl ihr =>
    intro st ho _
    rw [Ordered_node_iff] at ho
    cases l with
    | nil =>
      rw [minRec, delState]
      simp
    | node ll lnm la lv llev lr =>
      have hmem : (minRec (Tree.node ll lnm la lv llev lr)).1 ∈
          keys (Tree.node ll lnm la lv llev lr) := minRec_mem (by simp)
      have hlt : (minRec (Tree.node ll lnm la lv llev lr)).1 < nm := ho.2.2.1 _ hmem
      rw [minRec, delState, if_pos hlt]
      exact ihl st ho.1 (by simp)

theorem delState_absent (t : Tree) : ∀ x st, lookup t x = none → delState t x st = st := by
  induction t with
  | nil => intro x st _; rfl
  | node l nm a v lev r ihl ihr =>
    intro x st hlk
    rw [lookup] at hlk
    rw [delState]
    by_cases h1 : x < nm
    · rw [if_pos h1]
      rw [if_pos h1] at hlk
      exact ihl x st hlk
    · by_cases h2 : nm < x
      · rw [if_neg h1, if_pos h2]
        rw [if_neg h1, if_pos h2] at hlk
        exact ihr x st hlk
      · rw [if_neg h1, if_neg h2] at hlk
        simp at hlk

theorem delState_simple (t : Tree) : ∀ x st, lookup t x ≠ none → twoChildAt t x = false →
    delState t x st = unlinkRec st x := by
  induction t with
  | nil => intro x st hlk _; simp [lookup] at hlk
  | node l nm a v lev r ihl ihr =>
    intro x st hlk htc
    rw [lookup] at hlk
    rw [twoChildAt] at htc
    rw [delState]
    by_cases h1 : x < nm
    · rw [if_pos h1]
      rw [if_pos h1] at hlk htc
      exact ihl x st hlk htc
    · by_cases h2 : nm < x
      · rw [if_neg h1, if_pos h2]
        rw [if_neg h1, if_pos h2] at hlk htc
        exact ihr x st hlk htc
      · rw [if_neg h1, if_neg h2] at htc
        have hx : x = nm := le_antisymm (not_lt.mp h2) (not_lt.mp h1)
        rw [if_neg h1, if_neg h2]
        by_cases hL : l = .nil
        · rw [if_pos hL]
          rw [hx]
        · rw [if_neg hL]
          by_cases hR : r = .nil
          · rw [if_pos hR, hx]
          · exfalso
            simp only [Bool.and_eq_false_iff, Bool.not_eq_false', beq_iff_eq] at htc
            rcases htc with h | h
            · exact hL h
            · exact hR h

theorem delState_two (t : Tree) : ∀ x st, Ordered t → twoChildAt t x = true →
    ∃ s, s ∈ keys t ∧ x < s ∧ delState t x st = renameRec (unlinkRec st s) x s := by
  induction t with
  | nil => intro x st _ htc; simp [twoChildAt] at htc
  | node l nm a v lev r ihl ihr =>
    intro x st ho htc
    have ho' := ho
    rw [Ordered_node_iff] at ho'
    rw [twoChildAt] at htc
    rw [delState]
    by_cases h1 : x < nm
    · rw [if_pos h1] at htc ⊢
      obtain ⟨s, hs1, hs2, hs3⟩ := ihl x st ho'.1 htc
      exact ⟨s, by rw [keys_node]; exact List.mem_append_left _ hs1, hs2, hs3⟩
    · by_cases h2 : nm < x
      · rw [if_neg h1, if_pos h2] at htc ⊢
        obtain ⟨s, hs1, hs2, hs3⟩ := ihr x st ho'.2.1 htc
        refine ⟨s, ?_, hs2, hs3⟩
        rw [keys_node]
        exact List.mem_append_right _ (List.mem_cons_of_mem _ hs1)
      · rw [if_neg h1, if_neg h2] at htc ⊢
        have hx : x = nm := le_antisymm (not_lt.mp h2) (not_lt.mp h1)
        simp only [Bool.and_eq_true, Bool.not_eq_true', beq_eq_false_iff_ne, ne_eq] at htc
        rw [if_neg htc.1, if_neg htc.2]
        refine ⟨(minRec r).1, ?_, ?_, ?_⟩
        · rw [keys_node]
          exact List.mem_append_right _ (List.mem_cons_of_mem _ (minRec_mem htc.2))
        · rw [hx]
          exact ho'.2.2.2 _ (minRec_mem htc.2)
        · rw [delState_min r st ho'.2.1 htc.2, hx]

/-! ## Store invariant -/

theorem WFS_empty : WFS Store.empty :=
  ⟨trivial, by simp [Ordered, Store.empty], by simp [Store.empty], by simp [Store.empty]⟩

theorem insert_found {t : Tree} {x : String} (hA : AA t) (h : lookup t x ≠ none) :
    insert t x = (t, false) := by
  induction t with
  | nil => simp [lookup] at h
  | node l nm a v lev r ihl ihr =>
    have hAl : AA l := hA.1
    have hAr : AA r := hA.2.1
    rw [lookup] at h
    by_cases h1 : x < nm
    · rw [if_pos h1] at h
      rw [insert_eq_lt h1, ihl hAl h, AA_skew_self hA, AA_split_self hA]
    · by_cases h2 : nm < x
      · rw [if_neg h1, if_pos h2] at h
        rw [insert_eq_gt h1 h2, ihr hAr h, AA_skew_self hA, AA_split_self hA]
      · exact insert_eq_found h1 h2

theorem setprop_tree (st : Store) (x : String) (a v : Nat) :
    (jsV_setproperty st x a v).tree = writeRec (insert st.tree x).1 x a v := by
  rw [jsV_setproperty]
  split_ifs <;> rfl

theorem setprop_eq_empty {st : Store} {x : String} (a v : Nat)
    (hf : (insert st.tree x).2 = true) (he : st.live.isEmpty = true) :
    jsV_setproperty st x a v =
      { tree := writeRec (insert st.tree x).1 x a v, live := [x],
        limbo := st.limbo, detached := false } := by
  rw [jsV_setproperty, if_pos hf, if_pos he]

theorem setprop_eq_det {st : Store} {x : String} (a v : Nat)
    (hf : (insert st.tree x).2 = true) (he : st.live.isEmpty = false)
    (hd : st.detached = true) :
    jsV_setproperty st x a v =
      { st with tree := writeRec (insert st.tree x).1 x a v,
                limbo := st.limbo ++ [x] } := by
  rw [jsV_setproperty, if_pos hf, if_neg (by simp [he]), if_pos hd]

theorem setprop_eq_app {st : Store} {x : String} (a v : Nat)
    (hf : (insert st.tree x).2 = true) (he : st.live.isEmpty = false)
    (hd : st.detached = false) :
    jsV_setproperty st x a v =
      { st with tree := writeRec (insert st.tree x).1 x a v,
                live := st.live ++ [x] } := by
  rw [jsV_setproperty, if_pos hf, if_neg (by simp [he]), if_neg (by simp [hd])]

theorem setprop_existing {st : Store} {x : String} (hA : AA st.tree)
    (h : lookup st.tree x ≠ none) (a v : Nat) :
    jsV_setproperty st x a v = { st with tree := writeRec st.tree x a v } := by
  rw [jsV_setproperty, insert_found hA h]
  rfl

theorem setprop_lookup {st : Store} (h : WFS st) (x : String) (a v : Nat) (y : String) :
    lookup (jsV_setproperty st x a v).tree y =
      if y = x then some ⟨a, v⟩ else lookup st.tree y := by
  rw [setprop_tree, writeRec_lookup]
  by_cases he : y = x
  · rw [if_pos he, if_pos he]
    have hs : (lookup (insert st.tree x).1 x).isSome = true := by
      rw [lookup_insert h.ord]
      simp [findD_insList_self]
    obtain ⟨d, hd⟩ := Option.isSome_iff_exists.mp hs
    rw [hd]
    rfl
  · rw [if_neg he, if_neg he, lookup_insert h.ord, if_neg he]

theorem setprop_WFS {st : Store} (h : WFS st) (x : String) (a v : Nat) :
    WFS (jsV_setproperty st x a v) := by
  have haa : AA (jsV_setproperty st x a v).tree := by
    rw [setprop_tree]
    exact writeRec_AA (insert_AA st.tree x h.aa).1 x a v
  have hord : Ordered (jsV_setproperty st x a v).tree := by
    rw [setprop_tree]
    exact Ordered_writeRec (Ordered_insert h.ord x) x a v
  have hkeys : ∀ y, y ∈ keys (jsV_setproperty st x a v).tree ↔ y = x ∨ y ∈ keys st.tree := by
    intro y
    rw [setprop_tree, keys_writeRec_mem, keys_insert h.ord]
  by_cases hf : (insert st.tree x).2 = true
  · -- fresh record
    have habs : lookup st.tree x = none := by
      have := insert_snd st.tree x
      rw [hf] at this
      exact Option.isNone_iff_eq_none.mp this.symm
    have hnx : x ∉ keys st.tree := by
      rw [← lookup_isSome_iff h.ord, habs]
      simp
    have hnl : x ∉ st.live := fun hm => hnx ((h.mem x).mp (Or.inl hm))
    have hnlim : x ∉ st.limbo := fun hm => hnx ((h.mem x).mp (Or.inr hm))
    by_cases hem : st.live.isEmpty
    · have heq := setprop_eq_empty a v hf hem
      have hle : st.live = [] := List.isEmpty_iff.mp hem
      rw [heq] at haa hord hkeys ⊢
      refine ⟨haa, hord, ?_, ?_⟩
      · simp only [List.cons_append, List.nodup_cons, List.nil_append]
        constructor
        · simpa using hnlim
        · have := h.nodup
          rw [hle] at this
          simpa using this
      · intro n
        rw [hkeys n]
        have hmm := h.mem n
        rw [hle] at hmm
        simp only [List.not_mem_nil, false_or] at hmm
        constructor
        · rintro (hx | hx)
          · exact Or.inl (List.mem_singleton.mp hx)
          · exact Or.inr (hmm.mp hx)
        · rintro (rfl | hx)
          · exact Or.inl (List.mem_singleton.mpr rfl)
          · exact Or.inr (hmm.mpr hx)
    · have hem' : st.live.isEmpty = false := Bool.not_eq_true _ |>.mp hem
      by_cases hdet : st.detached = true
      · have heq := setprop_eq_det a v hf hem' hdet
        rw [heq] at haa hord hkeys ⊢
        refine ⟨haa, hord, ?_, ?_⟩
        · rw [← List.append_assoc, List.nodup_append]
          refine ⟨h.nodup, by simp, ?_⟩
          intro b hb
          simp only [List.mem_singleton]
          rintro rfl
          rcases List.mem_append.mp hb with hb | hb
          · exact hnl hb
          · exact hnlim hb
        · intro n
          rw [hkeys n]
          have := h.mem n
          simp only [List.mem_append, List.mem_singleton] at this ⊢
          by_cases hn : n = x <;> tauto
      · have hdet' : st.detached = false := Bool.not_eq_true _ |>.mp hdet
        have heq := setprop_eq_app a v hf hem' hdet'
        rw [heq] at haa hord hkeys ⊢
        refine ⟨haa, hord, ?_, ?_⟩
        · have hperm : List.Perm ((st.live ++ [x]) ++ st.limbo) ((st.live ++ st.limbo) ++ [x]) := by
            simp only [List.append_assoc]
            exact List.Perm.append_left st.live List.perm_append_comm
          rw [List.Perm.nodup_iff hperm, List.nodup_append]
          refine ⟨h.nodup, by simp, ?_⟩
          intro b hb
          simp only [List.mem_singleton]
          rintro rfl
          rcases List.mem_append.mp hb with hb | hb
          · exact hnl hb
          · exact hnlim hb
        · intro n
          rw [hkeys n]
          have := h.mem n
          simp only [List.mem_append, List.mem_singleton] at this ⊢
          by_cases hn : n = x <;> tauto
  · -- existing record: the lists do not change
    have hpres : lookup st.tree x ≠ none := by
      have := insert_snd st.tree x
      rw [Bool.not_eq_true] at hf
      rw [hf] at this
      intro hc
      rw [hc] at this
      simp at this
    rw [setprop_existing h.aa hpres a v]
    refine ⟨?_, ?_, h.nodup, ?_⟩
    · exact writeRec_AA h.aa x a v
    · exact Ordered_writeRec h.ord x a v
    · intro n
      simp only []
      rw [keys_writeRec_mem]
      exact h.mem n

/-! ## Deletion preserves the store invariant -/

theorem delete_absent {t : Tree} : ∀ x, AA t → lookup t x = none → delete t x = t := by
  induction t with
  | nil => intro x _ _; rfl
  | node l nm a v lev r ihl ihr =>
    intro x hA hlk
    rw [lookup] at hlk
    simp only [delete]
    by_cases h1 : x < nm
    · rw [if_pos h1] at hlk
      rw [if_pos h1, ihl x hA.1 hlk]
      exact AA_adjust_self hA
    · by_cases h2 : nm < x
      · rw [if_neg h1, if_pos h2] at hlk
        rw [if_neg h1, if_pos h2, ihr x hA.2.1 hlk]
        exact AA_adjust_self hA
      · rw [if_neg h1, if_neg h2] at hlk
        exact absurd hlk (by simp)

theorem delprop_tree (st : Store) (x : String) :
    (jsV_delproperty st x).tree = delete st.tree x := rfl

theorem delprop_lookup {st : Store} (h : WFS st) (x y : String) :
    lookup (jsV_delproperty st x).tree y = if y = x then none else lookup st.tree y := by
  rw [delprop_tree]
  exact lookup_delete h.ord x y

theorem delprop_absent {st : Store} {x : String} (hA : AA st.tree)
    (h : lookup st.tree x = none) : jsV_delproperty st x = st := by
  rw [jsV_delproperty, delState_absent st.tree x _ h, delete_absent x hA h]

/-- Renaming one list entry: membership in the renamed list. -/
theorem mem_rename (l : List String) (x s n : String) :
    (n ∈ l.map fun k => if k = x then s else k) ↔
      (n = s ∧ x ∈ l) ∨ (n ∈ l ∧ n ≠ x) := by
  simp only [List.mem_map]
  constructor
  · rintro ⟨k, hk, hf⟩
    by_cases he : k = x
    · rw [if_pos he] at hf
      rw [he] at hk
      exact Or.inl ⟨hf.symm, hk⟩
    · rw [if_neg he] at hf
      rw [← hf]
      exact Or.inr ⟨hk, he⟩
  · rintro (⟨rfl, hx⟩ | ⟨hn, hne⟩)
    · exact ⟨x, hx, if_pos rfl⟩
    · exact ⟨n, hn, if_neg hne⟩

/-- Renaming one absent name in a duplicate-free list keeps it duplicate-free. -/
theorem rename_nodup (l : List String) (x s : String) (hn : l.Nodup) (hs : s ∉ l) :
    (l.map fun k => if k = x then s else k).Nodup := by
  refine hn.map_on ?_
  intro a ha b hb hf
  by_cases hax : a = x <;> by_cases hbx : b = x
  · rw [hax, hbx]
  · rw [if_pos hax, if_neg hbx] at hf
    exact absurd (hf ▸ hb) hs
  · rw [if_neg hax, if_pos hbx] at hf
    exact absurd (hf ▸ ha) hs
  · rwa [if_neg hax, if_neg hbx] at hf

/-- `freenode`'s unlink removes the record from whichever chain carries it. -/
theorem unlink_combined (st : LState) (f : String) :
    (unlinkRec st f).live ++ (unlinkRec st f).limbo = (st.live ++ st.limbo).erase f := by
  rw [unlinkRec]
  by_cases hm : f ∈ st.live
  · rw [if_pos hm, List.erase_append_left _ hm]
  · rw [if_neg hm, List.erase_append_right _ hm]

theorem delprop_WFS {st : Store} (h : WFS st) (x : String) : WFS (jsV_delproperty st x) := by
  have haa : AA (jsV_delproperty st x).tree := (del_main st.tree x h.aa).1
  have hord : Ordered (jsV_delproperty st x).tree := Ordered_delete h.ord x
  by_cases hlk : lookup st.tree x = none
  · rw [delprop_absent h.aa hlk]
    exact h
  · have hxk : x ∈ keys st.tree := by
      rw [← lookup_isSome_iff h.ord]
      exact Option.isSome_iff_ne_none.mpr hlk
    have hxc : x ∈ st.live ++ st.limbo := by
      rcases (h.mem x).mpr hxk with hm | hm
      · exact List.mem_append.mpr (Or.inl hm)
      · exact List.mem_append.mpr (Or.inr hm)
    have hmemD : ∀ n, n ∈ keys (jsV_delproperty st x).tree ↔ n ∈ keys st.tree ∧ n ≠ x := by
      intro n
      rw [delprop_tree]
      exact keys_delete h.ord x n
    by_cases htc : twoChildAt st.tree x = true
    · obtain ⟨s, hsk, hxs, hds⟩ := delState_two st.tree x ⟨st.live, st.limbo, st.detached⟩ h.ord htc
      have hsc : s ∈ st.live ++ st.limbo := by
        rcases (h.mem s).mpr hsk with hm | hm
        · exact List.mem_append.mpr (Or.inl hm)
        · exact List.mem_append.mpr (Or.inr hm)
      have hcomb : (jsV_delproperty st x).live ++ (jsV_delproperty st x).limbo =
          ((st.live ++ st.limbo).erase s).map fun k => if k = x then s else k := by
        rw [jsV_delproperty]
        simp only [hds, renameRec, ← List.map_append, unlink_combined]
      have hnde : ((st.live ++ st.limbo).erase s).Nodup := h.nodup.erase s
      have hsne : s ∉ (st.live ++ st.limbo).erase s := by
        intro hmem
        exact absurd ((h.nodup.mem_erase_iff).mp hmem).1 (by simp)
      refine ⟨haa, hord, ?_, ?_⟩
      · rw [hcomb]
        exact rename_nodup _ x s hnde hsne
      · intro n
        have hiff : (n ∈ (jsV_delproperty st x).live ∨ n ∈ (jsV_delproperty st x).limbo) ↔
            n ∈ (jsV_delproperty st x).live ++ (jsV_delproperty st x).limbo := by
          rw [List.mem_append]
        rw [hiff, hcomb, hmemD n, mem_rename]
        have hxe : x ∈ (st.live ++ st.limbo).erase s ↔ True := by
          simp only [h.nodup.mem_erase_iff, iff_true]
          exact ⟨ne_of_lt hxs, hxc⟩
        have hne2 : ∀ m, m ∈ (st.live ++ st.limbo).erase s ↔ m ≠ s ∧ m ∈ st.live ++ st.limbo :=
          fun m => h.nodup.mem_erase_iff
        have hmm : ∀ m, m ∈ st.live ++ st.limbo ↔ m ∈ keys st.tree := by
          intro m
          rw [List.mem_append, ← h.mem m]
        have hsnx : s ≠ x := fun hc => absurd hc.symm (ne_of_lt hxs)
        by_cases hns : n = s
        · subst hns
          simp only [hxe, hne2, hmm]
          constructor
          · intro _
            exact ⟨hsk, hsnx⟩
          · intro _
            tauto
        · simp only [hne2, hmm]
          constructor
          · rintro (⟨hc, _⟩ | ⟨⟨_, hn2⟩, hn3⟩)
            · exact absurd hc hns
            · exact ⟨hn2, hn3⟩
          · intro ⟨hn2, hn3⟩
            exact Or.inr ⟨⟨hns, hn2⟩, hn3⟩
    · have hds := delState_simple st.tree x ⟨st.live, st.limbo, st.detached⟩ hlk
        (Bool.not_eq_true _ |>.mp htc)
      have hcomb : (jsV_delproperty st x).live ++ (jsV_delproperty st x).limbo =
          (st.live ++ st.limbo).erase x := by
        rw [jsV_delproperty]
        simp only [hds]
        exact unlink_combined ⟨st.live, st.limbo, st.detached⟩ x
      refine ⟨haa, hord, ?_, ?_⟩
      · rw [hcomb]
        exact h.nodup.erase x
      · intro n
        have hiff : (n ∈ (jsV_delproperty st x).live ∨ n ∈ (jsV_delproperty st x).limbo) ↔
            n ∈ (jsV_delproperty st x).live ++ (jsV_delproperty st x).limbo := by
          rw [List.mem_append]
        rw [hiff, hcomb, hmemD n, h.nodup.mem_erase_iff]
        have hmm : n ∈ st.live ++ st.limbo ↔ n ∈ keys st.tree := by
          rw [List.mem_append, ← h.mem n]
        rw [hmm]
        tauto

/-! ## The invariant holds of every reachable store -/

theorem applyOp_WFS {st : Store} (h : WFS st) (op : Op) : WFS (applyOp st op) := by
  cases op with
  | set n a v => exact setprop_WFS h n a v
  | del n => exact delprop_WFS h n

theorem applyOps_WFS_from (ops : List Op) : ∀ st : Store, WFS st → WFS (applyOps st ops) := by
  induction ops with
  | nil => exact fun st h => h
  | cons op ops ih => exact fun st h => ih (applyOp st op) (applyOp_WFS h op)

theorem applyOps_WFS (ops : List Op) : WFS (applyOps Store.empty ops) :=
  applyOps_WFS_from ops Store.empty WFS_empty

/-! ## The tree realizes the last-write map -/

theorem applyOps_append (ops : List Op) (op : Op) (st : Store) :
    applyOps st (ops ++ [op]) = applyOp (applyOps st ops) op := by
  rw [applyOps, applyOps, List.foldl_append, List.foldl_cons, List.foldl_nil]

theorem specFind_append (ops : List Op) (op : Op) :
    specFind (ops ++ [op]) = specStepMap (specFind ops) op := by
  rw [specFind, specFind, List.foldl_append, List.foldl_cons, List.foldl_nil]

theorem applyOps_lookup (ops : List Op) :
    ∀ y, lookup (applyOps Store.empty ops).tree y = specFind ops y := by
  induction ops using List.reverseRecOn with
  | nil => intro y; rfl
  | append_singleton ops op ih =>
    intro y
    rw [applyOps_append, specFind_append]
    cases op with
    | set n a v =>
      rw [applyOp, setprop_lookup (applyOps_WFS ops) n a v y]
      simp only [specStepMap]
      by_cases he : y = n
      · rw [if_pos he, if_pos he]
      · rw [if_neg he, if_neg he, ih y]
    | del n =>
      rw [applyOp, delprop_lookup (applyOps_WFS ops) n y]
      simp only [specStepMap]
      by_cases he : y = n
      · rw [if_pos he, if_pos he]
      · rw [if_neg he, if_neg he, ih y]

/-! ## Insert never writes to the sentinel -/

theorem skew_level (l r : Tree) (nm : String) (a v lev : Nat) :
    (skew (.node l nm a v lev r)).level = lev := by
  cases l with
  | nil => rfl
  | node ll lnm la lv llev lr =>
    simp only [skew]
    by_cases h : llev = lev
    · rw [if_pos h, level_node, h]
    · rw [if_neg h, level_node]

theorem insTouch_AA {t : Tree} : ∀ x, AA t → insTouch t x = false := by
  induction t with
  | nil => intro x _; rfl
  | node l nm a v lev r ihl ihr =>
    intro x hA
    have hlev : 0 < lev := by
      have := hA.2.2.1
      omega
    simp only [insTouch]
    by_cases h1 : x < nm
    · rw [if_pos h1, ihl x hA.1, skewTouch_pos hlev, splitTouch_pos (by rw [skew_level]; exact hlev)]
      rfl
    · by_cases h2 : nm < x
      · rw [if_neg h1, if_pos h2, ihr x hA.2.1, skewTouch_pos hlev,
          splitTouch_pos (by rw [skew_level]; exact hlev)]
        rfl
      · rw [if_neg h1, if_neg h2]

/-! ## The compact AA invariant gives the specification's itemized one -/

theorem nil_of_level_eq_zero {t : Tree} (hA : AA t) (h : t.level = 0) : t = .nil := by
  cases t with
  | nil => rfl
  | node l nm a v lev r =>
    have := hA.2.2.1
    rw [level_node] at h
    omega

theorem AA_AAinv : ∀ t, AA t → AAinv t := by
  intro t
  induction t with
  | nil => exact fun _ => trivial
  | node l nm a v lev r ihl ihr =>
    intro hA
    obtain ⟨hAl, hAr, hll, hrl, hgc⟩ := hA
    refine ⟨?_, hll, hrl, hgc, ?_, by omega, by omega, ihl hAl, ihr hAr⟩
    · rintro ⟨rfl, rfl⟩
      rw [level_nil] at hll
      omega
    · intro hgt
      constructor
      · intro hc
        rw [hc, level_nil] at hll
        omega
      · intro hc
        rw [hc, level_nil] at hrl
        omega

/-! ## Iterator consumption -/

theorem drainIter_eq_filter (chain : List Store) :
    ∀ q : List String, drainIter chain q =
      q.filter fun x => (jsV_getproperty chain x).isSome := by
  intro q
  induction q with
  | nil => rfl
  | cons x rest ih =>
    rw [drainIter, List.filter_cons]
    by_cases h : (jsV_getproperty chain x).isSome
    · rw [if_pos h, ih]
      simp [h]
    · rw [if_neg h, ih]
      simp [Bool.not_eq_true _ |>.mp h]

theorem drainIter_step (chain : List Store) :
    ∀ q : List String, drainIter chain q =
      match jsV_nextiterator chain q with
      | none => []
      | some (x, rest) => x :: drainIter chain rest := by
  intro q
  induction q with
  | nil => rfl
  | cons x rest ih =>
    rw [drainIter, jsV_nextiterator]
    by_cases h : (jsV_getproperty chain x).isSome
    · rw [if_pos h, if_pos h]
    · rw [if_neg h, if_neg h, ih]

/-! ## Shadowing as an any-predicate, and one level's contribution -/

theorem itshadow_eq_any (x : String) : ∀ chain : List Store,
    itshadow chain x =
      chain.any fun st =>
        match lookup st.tree x with
        | some p => p.atts &&& JS_DONTENUM == 0
        | none => false := by
  intro chain
  induction chain with
  | nil => rfl
  | cons top rest ih =>
    cases hl : lookup top.tree x with
    | none => simp [itshadow, hl, ih]
    | some p =>
      by_cases he : (p.atts &&& JS_DONTENUM == 0 : Bool)
      · simp [itshadow, hl, he]
      · simp [itshadow, hl, he, ih]

theorem mem_levelNames {above : List Store} {cur : Store} {x : String} :
    x ∈ levelNames above cur ↔
      x ∈ cur.live ∧
        (∃ p, lookup cur.tree x = some p ∧ (p.atts &&& JS_DONTENUM == 0 : Bool) = true) ∧
        itshadow above x = false := by
  rw [levelNames, List.mem_filter]
  constructor
  · rintro ⟨hm, hf⟩
    cases hl : lookup cur.tree x with
    | none => rw [hl] at hf; exact absurd hf (by simp)
    | some p =>
      rw [hl] at hf
      simp only [Bool.and_eq_true, Bool.not_eq_true'] at hf
      exact ⟨hm, ⟨p, rfl, hf.1⟩, hf.2⟩
  · rintro ⟨hm, ⟨p, hl, he⟩, hsh⟩
    refine ⟨hm, ?_⟩
    rw [hl]
    simp only [Bool.and_eq_true, Bool.not_eq_true']
    exact ⟨he, hsh⟩

theorem levelNames_sublist (above : List Store) (cur : Store) :
    List.Sublist (levelNames above cur) cur.live := List.filter_sublist _

theorem itwalk_own (st : Store) (protos : List Store) :
    itwalk (st :: protos) true = levelNames [] st := by
  rw [itwalk, itwalkAux, if_pos rfl, List.append_nil]

/-- A name emitted at one level shadows that name at every later level. -/
theorem itshadow_of_mem_levelNames {above : List Store} {cur : Store} {x : String}
    (h : x ∈ levelNames above cur) (rest : List Store) :
    itshadow (rest ++ [cur]) x = true := by
  obtain ⟨_, ⟨p, hl, he⟩, _⟩ := mem_levelNames.mp h
  simp [itshadow_eq_any, hl, he]

/-! ## Full-chain enumeration: block structure and distinctness -/

theorem WFS.live_nodup {st : Store} (h : WFS st) : st.live.Nodup :=
  (List.nodup_append.mp h.nodup).1

theorem itshadow_append (x : String) (l1 l2 : List Store) :
    itshadow (l1 ++ l2) x = (itshadow l1 x || itshadow l2 x) := by
  rw [itshadow_eq_any, itshadow_eq_any, itshadow_eq_any, List.any_append]

theorem not_mem_itwalkAux_of_shadow (x : String) :
    ∀ (protos above : List Store), itshadow above x = true →
      x ∉ itwalkAux above protos false := by
  intro protos
  induction protos with
  | nil =>
    intro above _ hm
    rw [itwalkAux] at hm
    exact absurd hm (List.not_mem_nil x)
  | cons cur protos ih =>
    intro above hsh hm
    rw [itwalkAux] at hm
    rcases List.mem_append.mp hm with hm | hm
    · have := (mem_levelNames.mp hm).2.2
      rw [hsh] at this
      cases this
    · have hm' : x ∈ itwalkAux (above ++ [cur]) protos false := by simpa using hm
      exact ih (above ++ [cur]) (by rw [itshadow_append, hsh, Bool.true_or]) hm'

theorem itwalkAux_nodup (chain : List Store) :
    ∀ above, (∀ st ∈ chain, st.live.Nodup) → (itwalkAux above chain false).Nodup := by
  induction chain with
  | nil =>
    intro above _
    rw [itwalkAux]
    exact List.nodup_nil
  | cons cur protos ih =>
    intro above hall
    rw [itwalkAux]
    have hred : (if false = true then ([] : List String)
        else itwalkAux (above ++ [cur]) protos false) =
        itwalkAux (above ++ [cur]) protos false := by simp
    rw [hred]
    refine List.nodup_append.mpr ⟨?_, ?_, ?_⟩
    · exact List.Nodup.sublist (levelNames_sublist above cur)
        (hall cur (List.mem_cons_self _ _))
    · exact ih (above ++ [cur]) fun st hst => hall st (List.mem_cons_of_mem _ hst)
    · intro a ha hatail
      exact not_mem_itwalkAux_of_shadow a protos (above ++ [cur])
        (itshadow_of_mem_levelNames ha above) hatail

theorem itwalkAux_eq_join (chain : List Store) :
    ∀ above, itwalkAux above chain false = (itblocks above chain).flatten := by
  induction chain with
  | nil => intro above; rfl
  | cons cur protos ih =>
    intro above
    rw [itwalkAux, itblocks]
    have hred : (if false = true then ([] : List String)
        else itwalkAux (above ++ [cur]) protos false) =
        itwalkAux (above ++ [cur]) protos false := by simp
    rw [hred, ih (above ++ [cur])]
    rfl

theorem itblocks_length (chain : List Store) :
    ∀ above, (itblocks above chain).length = chain.length := by
  induction chain with
  | nil => intro above; rfl
  | cons cur protos ih =>
    intro above
    rw [itblocks, List.length_cons, List.length_cons, ih (above ++ [cur])]

theorem itblocks_sublist_live (chain : List Store) :
    ∀ above (i : Nat) (hi : i < chain.length),
      List.Sublist
        ((itblocks above chain).get ⟨i, by rw [itblocks_length]; exact hi⟩)
        (chain.get ⟨i, hi⟩).live := by
  induction chain with
  | nil => intro above i hi; exact absurd hi (by simp)
  | cons cur protos ih =>
    intro above i hi
    cases i with
    | zero => exact levelNames_sublist above cur
    | succ j =>
      exact ih (above ++ [cur]) j (Nat.lt_of_succ_lt_succ hi)

/-! ## The truncation loop of `jsV_resizearray` -/

theorem resizeLoop_lookup (newlen : Nat) (protos : List Store) :
    ∀ (q : List String) (st : Store), WFS st → q.Nodup →
      (∀ x ∈ q, lookup st.tree x ≠ none) → ∀ y,
      lookup (resizeLoop newlen protos st q).tree y =
        if y ∈ q ∧ resizeCond newlen y then none else lookup st.tree y := by
  intro q
  induction q with
  | nil =>
    intro st _ _ _ y
    rw [resizeLoop]
    simp
  | cons x rest ih =>
    intro st hw hnd hall y
    have hx : lookup st.tree x ≠ none := hall x (List.mem_cons_self _ _)
    have hres : (jsV_getproperty (st :: protos) x).isSome = true := by
      cases hl : lookup st.tree x with
      | none => exact absurd hl hx
      | some p => simp [jsV_getproperty, hl]
    rw [resizeLoop, if_pos hres]
    by_cases hc : resizeCond newlen x
    · rw [if_pos hc]
      have hnr : x ∉ rest := (List.nodup_cons.mp hnd).1
      have hall' : ∀ z ∈ rest, lookup (jsV_delproperty st x).tree z ≠ none := by
        intro z hz
        have hzx : ¬ z = x := fun he => hnr (he ▸ hz)
        rw [delprop_lookup hw x z, if_neg hzx]
        exact hall z (List.mem_cons_of_mem _ hz)
      rw [ih (jsV_delproperty st x) (delprop_WFS hw x) (List.nodup_cons.mp hnd).2 hall' y,
        delprop_lookup hw x y]
      by_cases hyx : y = x
      · subst hyx
        rw [if_neg (fun hc2 => hnr hc2.1), if_pos rfl,
          if_pos ⟨List.mem_cons_self _ _, hc⟩]
      · rw [if_neg hyx]
        by_cases hyr : y ∈ rest ∧ resizeCond newlen y
        · rw [if_pos hyr, if_pos ⟨List.mem_cons_of_mem _ hyr.1, hyr.2⟩]
        · rw [if_neg hyr, if_neg ?hng]
          rintro ⟨hmem, hCy⟩
          rcases List.mem_cons.mp hmem with rfl | hmem'
          · exact hyx rfl
          · exact hyr ⟨hmem', hCy⟩
    · rw [if_neg hc]
      rw [ih st hw (List.nodup_cons.mp hnd).2
        (fun z hz => hall z (List.mem_cons_of_mem _ hz)) y]
      by_cases hyr : y ∈ rest ∧ resizeCond newlen y
      · rw [if_pos hyr, if_pos ⟨List.mem_cons_of_mem _ hyr.1, hyr.2⟩]
      · rw [if_neg hyr, if_neg ?hng2]
        rintro ⟨hmem, hCy⟩
        rcases List.mem_cons.mp hmem with rfl | hmem'
        · exact hc hCy
        · exact hyr ⟨hmem', hCy⟩

theorem newiterator_own_nodup {st : Store} (h : WFS st) (protos : List Store) :
    (jsV_newiterator (st :: protos) true).Nodup := by
  rw [jsV_newiterator, itwalk_own]
  exact List.Nodup.sublist (levelNames_sublist [] st) h.live_nodup

theorem newiterator_own_resolves (st : Store) (protos : List Store) :
    ∀ x ∈ jsV_newiterator (st :: protos) true, lookup st.tree x ≠ none := by
  intro x hx
  rw [jsV_newiterator, itwalk_own] at hx
  obtain ⟨_, ⟨p, hl, _⟩, _⟩ := mem_levelNames.mp hx
  rw [hl]
  simp

/-! ## Simple operation sequences realize the ordered model -/

theorem SLinv_keys {st : Store} {m : List (String × Nat)} (h : SLinv st m) (n : String) :
    n ∈ keys st.tree ↔ n ∈ m.map Prod.fst := by
  rw [← h.wfs.mem n, h.live_eq, h.limbo_nil]
  simp

theorem filter_map_fst (f : String → Bool) :
    ∀ m : List (String × Nat),
      (m.map Prod.fst).filter f = (m.filter fun p => f p.1).map Prod.fst := by
  intro m
  induction m with
  | nil => rfl
  | cons p tl ih =>
    rw [List.map_cons, List.filter_cons, List.filter_cons]
    by_cases hf : f p.1
    · rw [if_pos hf, if_pos hf, List.map_cons, ih]
    · rw [if_neg hf, if_neg hf, ih]

theorem erase_map_fst (n : String) :
    ∀ m : List (String × Nat), (m.map Prod.fst).Nodup →
      (m.map Prod.fst).erase n = (m.filter fun p => p.1 != n).map Prod.fst := by
  intro m
  induction m with
  | nil => intro _; rfl
  | cons p tl ih =>
    intro hnd
    rw [List.map_cons, List.erase_cons, List.filter_cons]
    by_cases hpn : p.1 = n
    · rw [if_pos (beq_iff_eq.mpr hpn)]
      have hne : (p.1 != n) = false := by simp [hpn]
      rw [hne]
      have hfe : tl.filter (fun p => p.1 != n) = tl := by
        rw [List.filter_eq_self]
        intro q hq
        have : q.1 ≠ n := by
          intro hc
          have hnm : n ∈ tl.map Prod.fst := List.mem_map.mpr ⟨q, hq, hc⟩
          rw [← hpn] at hnm
          exact (List.nodup_cons.mp hnd).1 hnm
        simp [this]
      rw [hfe]
      simp
    · rw [if_neg (by simp [hpn]), if_pos (by simp [hpn]), List.map_cons,
        ih (List.nodup_cons.mp hnd).2]

theorem SLinv_empty : SLinv Store.empty [] := by
  refine ⟨WFS_empty, rfl, rfl, rfl, ?_⟩
  intro p hp
  exact absurd hp (List.not_mem_nil p)

theorem SLinv_set {st : Store} {m : List (String × Nat)} (h : SLinv st m)
    (n : String) (a v : Nat) :
    SLinv (jsV_setproperty st n a v) (specStep m (.set n a v)) := by
  have hw' := setprop_WFS h.wfs n a v
  by_cases hmem : n ∈ m.map Prod.fst
  · -- the name is already present: in-place attribute update
    have hk : n ∈ keys st.tree := (SLinv_keys h n).mpr hmem
    have hlk : lookup st.tree n ≠ none := by
      have := (lookup_isSome_iff h.wfs.ord n).mpr hk
      exact Option.isSome_iff_ne_none.mp this
    have hany : (m.any fun p => p.1 == n) = true := by
      obtain ⟨p, hp, hpn⟩ := List.mem_map.mp hmem
      exact List.any_eq_true.mpr ⟨p, hp, beq_iff_eq.mpr hpn⟩
    have hstep : specStep m (.set n a v) = m.map fun p => if p.1 = n then (n, a) else p := by
      rw [specStep, if_pos hany]
    have heq := setprop_existing h.wfs.aa hlk a v
    refine ⟨hw', ?_, ?_, ?_, ?_⟩
    · rw [heq, hstep, List.map_map]
      have : st.live = m.map Prod.fst := h.live_eq
      rw [this]
      refine (List.map_congr_left ?_).symm
      intro p _
      by_cases hpn : p.1 = n
      · simp [Function.comp, hpn]
      · simp [Function.comp, hpn]
    · rw [heq]
      exact h.limbo_nil
    · rw [heq]
      exact h.det
    · intro q hq
      rw [hstep] at hq
      obtain ⟨p, hp, hup⟩ := List.mem_map.mp hq
      rw [setprop_lookup h.wfs n a v]
      by_cases hpn : p.1 = n
      · rw [if_pos hpn] at hup
        rw [← hup]
        exact ⟨v, by rw [if_pos rfl]⟩
      · rw [if_neg hpn] at hup
        rw [← hup]
        obtain ⟨w, hw⟩ := h.atts p hp
        exact ⟨w, by rw [if_neg hpn, hw]⟩
  · -- fresh name: appended at the tail of the visible list
    have hk : n ∉ keys st.tree := fun hc => hmem ((SLinv_keys h n).mp hc)
    have hlk : lookup st.tree n = none := by
      have := (lookup_isSome_iff h.wfs.ord n)
      cases hl : lookup st.tree n with
      | none => rfl
      | some p =>
        rw [hl] at this
        exact absurd (this.mp rfl) hk
    have hfr : (insert st.tree n).2 = true := by
      have := insert_snd st.tree n
      rw [hlk] at this
      exact this
    have hany : (m.any fun p => p.1 == n) = false := by
      rw [Bool.eq_false_iff]
      intro hc
      obtain ⟨p, hp, hpn⟩ := List.any_eq_true.mp hc
      exact hmem (List.mem_map.mpr ⟨p, hp, beq_iff_eq.mp hpn⟩)
    have hstep : specStep m (.set n a v) = m ++ [(n, a)] := by
      rw [specStep, if_neg (by rw [hany]; exact Bool.false_ne_true)]
    have hatts : ∀ q ∈ m ++ [(n, a)], ∃ w,
        lookup (jsV_setproperty st n a v).tree q.1 = some ⟨q.2, w⟩ := by
      intro q hq
      rw [setprop_lookup h.wfs n a v]
      rcases List.mem_append.mp hq with hq | hq
      · have hqn : q.1 ≠ n := fun hc => hmem (List.mem_map.mpr ⟨q, hq, hc⟩)
        obtain ⟨w, hw⟩ := h.atts q hq
        exact ⟨w, by rw [if_neg hqn, hw]⟩
      · rw [List.mem_singleton.mp hq]
        exact ⟨v, by rw [if_pos rfl]⟩
    by_cases hem : st.live.isEmpty
    · have hme : m = [] := by
        have := List.isEmpty_iff.mp hem
        rw [h.live_eq] at this
        exact List.map_eq_nil_iff.mp this
      have heq := setprop_eq_empty a v hfr hem
      refine ⟨hw', ?_, ?_, ?_, ?_⟩
      · rw [heq, hstep, hme]
        rfl
      · rw [heq]
        exact h.limbo_nil
      · rw [heq]
      · intro q hq
        rw [hstep] at hq
        exact hatts q hq
    · have heq := setprop_eq_app a v hfr (Bool.not_eq_true _ |>.mp hem) h.det
      refine ⟨hw', ?_, ?_, ?_, ?_⟩
      · rw [heq, hstep, List.map_append, h.live_eq]
        rfl
      · rw [heq]
        exact h.limbo_nil
      · rw [heq]
        exact h.det
      · intro q hq
        rw [hstep] at hq
        exact hatts q hq

theorem SLinv_del {st : Store} {m : List (String × Nat)} (h : SLinv st m)
    (n : String) (htc : twoChildAt st.tree n = false)
    (hlast : (st.live.getLast? == some n) = false) :
    SLinv (jsV_delproperty st n) (specStep m (.del n)) := by
  have hstep : specStep m (.del n) = m.filter fun p => p.1 != n := rfl
  by_cases hlk : lookup st.tree n = none
  · -- absent name: store and model both unchanged
    have hfe : m.filter (fun p => p.1 != n) = m := by
      rw [List.filter_eq_self]
      intro q hq
      obtain ⟨w, hw⟩ := h.atts q hq
      have : q.1 ≠ n := by
        intro hc
        rw [hc, hlk] at hw
        cases hw
      simp [this]
    rw [delprop_absent h.wfs.aa hlk, hstep, hfe]
    exact h
  · have hk : n ∈ keys st.tree := by
      rw [← lookup_isSome_iff h.wfs.ord]
      exact Option.isSome_iff_ne_none.mpr hlk
    have hnl : n ∈ st.live := by
      rcases (h.wfs.mem n).mpr hk with hm | hm
      · exact hm
      · rw [h.limbo_nil] at hm
        exact absurd hm (List.not_mem_nil n)
    have hds := delState_simple st.tree n ⟨st.live, st.limbo, st.detached⟩ hlk htc
    have hul : unlinkRec ⟨st.live, st.limbo, st.detached⟩ n =
        ⟨st.live.erase n, st.limbo, false⟩ := by
      rw [unlinkRec]
      simp only [if_pos hnl]
      rw [h.det, hlast]
      rfl
    have hnd : (m.map Prod.fst).Nodup := by
      rw [← h.live_eq]
      exact h.wfs.live_nodup
    refine ⟨delprop_WFS h.wfs n, ?_, ?_, ?_, ?_⟩
    · show (delState st.tree n ⟨st.live, st.limbo, st.detached⟩).live = _
      rw [hds, hul, hstep]
      show st.live.erase n = _
      rw [h.live_eq]
      exact erase_map_fst n m hnd
    · show (delState st.tree n ⟨st.live, st.limbo, st.detached⟩).limbo = []
      rw [hds, hul]
      exact h.limbo_nil
    · show (delState st.tree n ⟨st.live, st.limbo, st.detached⟩).detached = false
      rw [hds, hul]
    · intro q hq
      rw [hstep] at hq
      have hqm := List.mem_of_mem_filter hq
      have hqn : q.1 ≠ n := by
        have := List.of_mem_filter hq
        simpa using this
      obtain ⟨w, hw⟩ := h.atts q hqm
      refine ⟨w, ?_⟩
      rw [delprop_lookup h.wfs n q.1, if_neg hqn, hw]

theorem SLinv_ops : ∀ (ops : List Op) (st : Store) (m : List (String × Nat)),
    SLinv st m → simpleOps st ops = true →
    SLinv (applyOps st ops) (ops.foldl specStep m) := by
  intro ops
  induction ops with
  | nil => exact fun st m h _ => h
  | cons op ops ih =>
    intro st m h hs
    cases op with
    | set n a v =>
      rw [simpleOps] at hs
      rw [applyOps, List.foldl_cons, List.foldl_cons]
      exact ih (jsV_setproperty st n a v) (specStep m (.set n a v)) (SLinv_set h n a v) hs
    | del n =>
      rw [simpleOps, Bool.and_eq_true, Bool.and_eq_true] at hs
      obtain ⟨⟨htc, hlast⟩, hs⟩ := hs
      rw [applyOps, List.foldl_cons, List.foldl_cons]
      refine ih (jsV_delproperty st n) (specStep m (.del n)) ?_ hs
      exact SLinv_del h n (by simpa using htc) (by simpa using hlast)

theorem itwalk_own_simple (ops : List Op) (h : simpleOps Store.empty ops = true) :
    itwalk [applyOps Store.empty ops] true =
      ((specList ops).filter fun p => (p.2 &&& JS_DONTENUM == 0 : Bool)).map Prod.fst := by
  have hinv : SLinv (applyOps Store.empty ops) (specList ops) :=
    SLinv_ops ops Store.empty [] SLinv_empty h
  rw [itwalk_own, levelNames, hinv.live_eq, filter_map_fst]
  congr 1
  apply List.filter_congr
  intro p hp
  obtain ⟨w, hw⟩ := hinv.atts p hp
  rw [hw]
  have hsh : itshadow [] p.1 = false := rfl
  rw [hsh]
  simp

/-! ## Remaining helper lemmas for the claim theorems -/

theorem itblocks_getD_sublist (chain : List Store) :
    ∀ (above : List Store) (i : Nat),
      List.Sublist ((itblocks above chain).getD i [])
        ((chain.getD i Store.empty).live) := by
  induction chain with
  | nil =>
    intro above i
    rw [itblocks]
    cases i <;> exact List.nil_sublist _
  | cons cur protos ih =>
    intro above i
    rw [itblocks]
    cases i with
    | zero => exact levelNames_sublist above cur
    | succ j => exact ih (above ++ [cur]) j

theorem chain_live_nodup (opss : List (List Op)) :
    ∀ st ∈ opss.map (applyOps Store.empty), st.live.Nodup := by
  intro st hst
  obtain ⟨ops, _, rfl⟩ := List.mem_map.mp hst
  exact (applyOps_WFS ops).live_nodup

/-! ## The claims -/

/-- C1: after every finite sequence of set and delete operations on an
initially empty object, the property tree satisfies all the itemized AA-tree
structural invariants at every node: leaves have level 1, left-child levels
are exactly one less, right-child levels are equal or one less,
right-grandchild levels are strictly less, nodes of level above 1 have two
non-sentinel children, and there are no left-horizontal and no consecutive
right-horizontal links. -/
theorem C1_tree_invariants (ops : List Op) : AAinv (applyOps Store.empty ops).tree :=
  AA_AAinv _ (applyOps_WFS ops).aa

/-- C2: after every operation sequence on an initially empty object, `lookup`
returns, for every name, exactly the last-written attributes and value if the
name was set and not subsequently deleted, and nothing if it was never set or
was deleted afterwards — the specification-side map `specFind`. -/
theorem C2_search_correctness (ops : List Op) (y : String) :
    lookup (applyOps Store.empty ops).tree y = specFind ops y :=
  applyOps_lookup ops y

/-- C3, counterexample: inserting "b", "a", "c" and then deleting "b" (whose
node has two children) makes own-property enumeration emit ["c", "a"], while
the surviving keys in first-insertion order are ["a", "c"]: the claim's
enumeration order is violated by the two-child delete's successor renaming. -/
theorem C3_counterexample :
    itwalk [applyOps Store.empty
        [.set "b" 0 0, .set "a" 0 0, .set "c" 0 0, .del "b"]] true = ["c", "a"] ∧
    (specList [.set "b" 0 0, .set "a" 0 0, .set "c" 0 0, .del "b"]).map Prod.fst =
      ["a", "c"] ∧
    itwalk [applyOps Store.empty
        [.set "b" 0 0, .set "a" 0 0, .set "c" 0 0, .del "b"]] true ≠
      (specList [.set "b" 0 0, .set "a" 0 0, .set "c" 0 0, .del "b"]).map Prod.fst := by
  refine ⟨by decide, by decide, by decide⟩

/-- C3, amended: own-property enumeration yields the surviving enumerable keys
in first-insertion order provided no delete in the sequence removes a node
with two non-sentinel children or the record at the list tail. -/
theorem C3_enumeration_order (ops : List Op) (h : simpleOps Store.empty ops = true) :
    itwalk [applyOps Store.empty ops] true =
      ((specList ops).filter fun p => (p.2 &&& JS_DONTENUM == 0 : Bool)).map Prod.fst :=
  itwalk_own_simple ops h

theorem C3_enumeration_order_witness :
    simpleOps Store.empty [.set "a" 0 0, .set "b" 0 0, .del "a"] = true ∧
    itwalk [applyOps Store.empty [.set "a" 0 0, .set "b" 0 0, .del "a"]] true =
      ((specList [.set "a" 0 0, .set "b" 0 0, .del "a"]).filter
        fun p => (p.2 &&& JS_DONTENUM == 0 : Bool)).map Prod.fst :=
  ⟨by decide, C3_enumeration_order [.set "a" 0 0, .set "b" 0 0, .del "a"] (by decide)⟩

/-- C4, counterexample: with A holding "x" non-enumerable and its prototype B
holding "x" enumerable, full-chain enumeration of A emits "x" (contributed by
B) rather than omitting it: a non-enumerable closer occurrence does not
shadow. -/
theorem C4_counterexample :
    lookup (applyOps Store.empty [.set "x" JS_DONTENUM 0]).tree "x" =
      some ⟨JS_DONTENUM, 0⟩ ∧
    lookup (applyOps Store.empty [.set "x" 0 0]).tree "x" = some ⟨0, 0⟩ ∧
    itwalk [applyOps Store.empty [.set "x" JS_DONTENUM 0],
        applyOps Store.empty [.set "x" 0 0]] false = ["x"] := by
  refine ⟨by decide, by decide, by decide⟩

/-- C4, amended: a non-enumerable own "x" does not suppress an enumerable "x"
on the prototype: for every pair of objects A and B where A holds "x"
non-enumerable and B holds "x" enumerable and visible, full-chain enumeration
of A before B skips A's occurrence but emits B's. -/
theorem C4_nonenumerable_no_shadow (A B : Store) (pa pb : PropData)
    (ha : lookup A.tree "x" = some pa) (hpa : pa.atts &&& JS_DONTENUM ≠ 0)
    (hb : lookup B.tree "x" = some pb) (hpb : pb.atts &&& JS_DONTENUM = 0)
    (hbl : "x" ∈ B.live) :
    "x" ∉ levelNames [] A ∧ "x" ∈ levelNames [A] B ∧ "x" ∈ itwalk [A, B] false := by
  have hsh : itshadow [A] "x" = false := by
    have hfa : (pa.atts &&& JS_DONTENUM == 0) = false := by simpa using hpa
    simp [itshadow, ha, hfa]
  have hmemB : "x" ∈ levelNames [A] B := by
    rw [mem_levelNames]
    exact ⟨hbl, ⟨pb, hb, by simp [hpb]⟩, hsh⟩
  refine ⟨?_, hmemB, ?_⟩
  · intro hc
    obtain ⟨_, ⟨p, hl, he⟩, _⟩ := mem_levelNames.mp hc
    rw [ha] at hl
    cases hl
    rw [show (pa.atts &&& JS_DONTENUM == 0) = false by simpa using hpa] at he
    cases he
  · rw [itwalk, itwalkAux]
    refine List.mem_append.mpr (Or.inr ?_)
    have hred : (if false = true then ([] : List String)
        else itwalkAux ([] ++ [A]) [B] false) = itwalkAux [A] [B] false := by simp
    rw [hred, itwalkAux]
    exact List.mem_append.mpr (Or.inl hmemB)

theorem C4_nonenumerable_no_shadow_witness :
    lookup (applyOps Store.empty [Op.set "x" JS_DONTENUM 0]).tree "x" =
        some ⟨JS_DONTENUM, 0⟩ ∧
    (⟨JS_DONTENUM, 0⟩ : PropData).atts &&& JS_DONTENUM ≠ 0 ∧
    lookup (applyOps Store.empty [Op.set "x" 0 0]).tree "x" = some ⟨0, 0⟩ ∧
    (⟨0, 0⟩ : PropData).atts &&& JS_DONTENUM = 0 ∧
    "x" ∈ (applyOps Store.empty [Op.set "x" 0 0]).live ∧
    ("x" ∉ levelNames [] (applyOps Store.empty [Op.set "x" JS_DONTENUM 0]) ∧
      "x" ∈ levelNames [applyOps Store.empty [Op.set "x" JS_DONTENUM 0]]
        (applyOps Store.empty [Op.set "x" 0 0]) ∧
      "x" ∈ itwalk [applyOps Store.empty [Op.set "x" JS_DONTENUM 0],
        applyOps Store.empty [Op.set "x" 0 0]] false) :=
  ⟨by decide, by decide, by decide, by decide, by decide,
    C4_nonenumerable_no_shadow _ _ ⟨JS_DONTENUM, 0⟩ ⟨0, 0⟩ (by decide) (by decide)
      (by decide) (by decide) (by decide)⟩

/-- C5: a second set with the same name only rewrites the record's data in
place: the resulting store differs from the first set's store only by
`writeRec` on the tree, the key set is unchanged, and the name occupies
exactly one record, at the ordered-list position the first set established. -/
theorem C5_idempotent_set (ops : List Op) (x : String) (a v a' v' : Nat) :
    jsV_setproperty (jsV_setproperty (applyOps Store.empty ops) x a v) x a' v' =
      { jsV_setproperty (applyOps Store.empty ops) x a v with
        tree := writeRec (jsV_setproperty (applyOps Store.empty ops) x a v).tree x a' v' } ∧
    keys (jsV_setproperty (jsV_setproperty (applyOps Store.empty ops) x a v) x a' v').tree =
      keys (jsV_setproperty (applyOps Store.empty ops) x a v).tree ∧
    ((jsV_setproperty (jsV_setproperty (applyOps Store.empty ops) x a v) x a' v').live ++
      (jsV_setproperty (jsV_setproperty (applyOps Store.empty ops) x a v) x a' v').limbo).count x
      = 1 := by
  have h1 : WFS (jsV_setproperty (applyOps Store.empty ops) x a v) :=
    setprop_WFS (applyOps_WFS ops) x a v
  have hlk : lookup (jsV_setproperty (applyOps Store.empty ops) x a v).tree x ≠ none := by
    rw [setprop_lookup (applyOps_WFS ops) x a v x, if_pos rfl]
    simp
  have heq := setprop_existing h1.aa hlk a' v'
  refine ⟨heq, ?_, ?_⟩
  · rw [heq]
    exact writeRec_keys _ x a' v'
  · rw [heq]
    have hx : x ∈ (jsV_setproperty (applyOps Store.empty ops) x a v).live ++
        (jsV_setproperty (applyOps Store.empty ops) x a v).limbo := by
      rw [List.mem_append]
      refine (h1.mem x).mpr ?_
      rw [← lookup_isSome_iff h1.ord]
      exact Option.isSome_iff_ne_none.mpr hlk
    exact List.count_eq_one_of_mem h1.nodup hx

/-- Each level of a chain whose levels are built by simple operation
sequences carries its records in the level's first-insertion order. -/
theorem chain_getD_live : ∀ opss : List (List Op),
    (∀ ops ∈ opss, simpleOps Store.empty ops = true) → ∀ i : Nat,
    ((opss.map (applyOps Store.empty)).getD i Store.empty).live =
      (specList (opss.getD i [])).map Prod.fst := by
  intro opss
  induction opss with
  | nil =>
    intro _ i
    cases i <;> rfl
  | cons ops opss ih =>
    intro h i
    cases i with
    | zero =>
      exact (SLinv_ops ops Store.empty [] SLinv_empty
        (h ops (List.mem_cons_self _ _))).live_eq
    | succ j => exact ih (fun o ho => h o (List.mem_cons_of_mem _ ho)) j

/-- C6, counterexample: a one-level chain built by set "b", set "a", set "c",
del "b" (a two-child delete) full-chain enumerates to ["c", "a"], but the
level's first-insertion order of the surviving keys is ["a", "c"]: names
contributed by one level need not appear in that level's insertion order. -/
theorem C6_counterexample :
    itwalk [applyOps Store.empty
        [.set "b" 0 0, .set "a" 0 0, .set "c" 0 0, .del "b"]] false = ["c", "a"] ∧
    (specList [.set "b" 0 0, .set "a" 0 0, .set "c" 0 0, .del "b"]).map Prod.fst =
      ["a", "c"] ∧
    itwalk [applyOps Store.empty
        [.set "b" 0 0, .set "a" 0 0, .set "c" 0 0, .del "b"]] false ≠
      (specList [.set "b" 0 0, .set "a" 0 0, .set "c" 0 0, .del "b"]).map Prod.fst := by
  refine ⟨by decide, by decide, by decide⟩

/-- C6, amended: over a chain whose levels are each built without two-child
and without tail deletes, full-chain enumeration emits each name at most once
and the output is exactly the concatenation of per-level blocks in prototype
order — ascending prototype distance outside — with each block a subsequence
of its level's first-insertion key order inside. -/
theorem C6_chain_order (opss : List (List Op))
    (h : ∀ ops ∈ opss, simpleOps Store.empty ops = true) :
    (itwalk (opss.map (applyOps Store.empty)) false).Nodup ∧
    itwalk (opss.map (applyOps Store.empty)) false =
      (itblocks [] (opss.map (applyOps Store.empty))).flatten ∧
    (itblocks [] (opss.map (applyOps Store.empty))).length = opss.length ∧
    ∀ i : Nat,
      List.Sublist ((itblocks [] (opss.map (applyOps Store.empty))).getD i [])
        ((specList (opss.getD i [])).map Prod.fst) := by
  refine ⟨itwalkAux_nodup _ [] (chain_live_nodup opss), itwalkAux_eq_join _ [], ?_, ?_⟩
  · rw [itblocks_length, List.length_map]
  · intro i
    rw [← chain_getD_live opss h i]
    exact itblocks_getD_sublist _ [] i

theorem C6_chain_order_witness :
    (∀ ops ∈ [[Op.set "a" 0 0, Op.set "b" 0 0, Op.del "a"], [Op.set "c" 0 0]],
      simpleOps Store.empty ops = true) ∧
    ((itwalk ([[Op.set "a" 0 0, Op.set "b" 0 0, Op.del "a"],
          [Op.set "c" 0 0]].map (applyOps Store.empty)) false).Nodup ∧
      itwalk ([[Op.set "a" 0 0, Op.set "b" 0 0, Op.del "a"],
          [Op.set "c" 0 0]].map (applyOps Store.empty)) false =
        (itblocks [] ([[Op.set "a" 0 0, Op.set "b" 0 0, Op.del "a"],
          [Op.set "c" 0 0]].map (applyOps Store.empty))).flatten ∧
      (itblocks [] ([[Op.set "a" 0 0, Op.set "b" 0 0, Op.del "a"],
          [Op.set "c" 0 0]].map (applyOps Store.empty))).length =
        [[Op.set "a" 0 0, Op.set "b" 0 0, Op.del "a"], [Op.set "c" 0 0]].length ∧
      ∀ i : Nat,
        List.Sublist
          ((itblocks [] ([[Op.set "a" 0 0, Op.set "b" 0 0, Op.del "a"],
            [Op.set "c" 0 0]].map (applyOps Store.empty))).getD i [])
          ((specList ([[Op.set "a" 0 0, Op.set "b" 0 0, Op.del "a"],
            [Op.set "c" 0 0]].getD i [])).map Prod.fst)) :=
  ⟨by decide,
    C6_chain_order [[Op.set "a" 0 0, Op.set "b" 0 0, Op.del "a"], [Op.set "c" 0 0]]
      (by decide)⟩

/-- C7: iterator consumption relates to the queue by re-resolving each pending
name against the chain and skipping the names that no longer resolve — drain
equals the resolvable filter of the queue, one name per `jsV_nextiterator`
step — and concretely, with own properties "a" and "b" snapshotted and "a"
deleted before consumption, draining yields only "b". -/
theorem C7_stale_skip (chain : List Store) (q : List String) :
    drainIter chain q = (q.filter fun x => (jsV_getproperty chain x).isSome) ∧
    drainIter chain q =
      (match jsV_nextiterator chain q with
       | none => []
       | some (x, rest) => x :: drainIter chain rest) ∧
    drainIter [jsV_delproperty (applyOps Store.empty [.set "a" 0 0, .set "b" 0 0]) "a"]
      (jsV_newiterator [applyOps Store.empty [.set "a" 0 0, .set "b" 0 0]] true) = ["b"] :=
  ⟨drainIter_eq_filter chain q, drainIter_step chain q, by decide⟩

/-- C8, counterexample: a non-enumerable canonical index at or beyond the new
length survives `jsV_resizearray` because the truncation loop only sees the
own enumerable snapshot — the claimed "deletes iff canonical and at least the
new length" fails for "5" stored non-enumerable in an array of length 7
resized to 1. -/
theorem C8_counterexample :
    1 ≤ jsV_numbertouint32 (jsV_stringtonumber "5") ∧
    "5" = jsV_numbertostring (jsV_numbertouint32 (jsV_stringtonumber "5")) ∧
    (lookup (jsV_resizearray ⟨applyOps Store.empty [.set "5" JS_DONTENUM 0], [], 7⟩ 1).store.tree
      "5").isSome = true ∧
    (jsV_resizearray ⟨applyOps Store.empty [.set "5" JS_DONTENUM 0], [], 7⟩ 1).length = 1 := by
  refine ⟨by decide, by decide, by decide, by decide⟩

/-- C8, amended: when shrinking, `jsV_resizearray` deletes exactly the names
of the own-enumerable snapshot whose unsigned-integer conversion is at least
the new length and converts back to the same string; when not shrinking it
deletes nothing; and it stores the new length unconditionally. -/
theorem C8_resize_array (obj : ArrObj) (h : WFS obj.store) (newlen : Nat) (y : String) :
    (jsV_resizearray obj newlen).length = newlen ∧
    lookup (jsV_resizearray obj newlen).store.tree y =
      (if newlen < obj.length ∧
          y ∈ jsV_newiterator (obj.store :: obj.protos) true ∧ resizeCond newlen y
       then none else lookup obj.store.tree y) := by
  by_cases hlt : newlen < obj.length
  · rw [jsV_resizearray, if_pos hlt]
    refine ⟨rfl, ?_⟩
    rw [resizeLoop_lookup newlen obj.protos (jsV_newiterator (obj.store :: obj.protos) true)
      obj.store h (newiterator_own_nodup h obj.protos)
      (newiterator_own_resolves obj.store obj.protos) y]
    by_cases hc : y ∈ jsV_newiterator (obj.store :: obj.protos) true ∧ resizeCond newlen y
    · rw [if_pos hc, if_pos ⟨hlt, hc⟩]
    · rw [if_neg hc, if_neg (fun hc2 => hc hc2.2)]
  · rw [jsV_resizearray, if_neg hlt]
    exact ⟨rfl, by rw [if_neg (fun hc2 => hlt hc2.1)]⟩

theorem C8_resize_array_witness :
    WFS (applyOps Store.empty [.set "0" 0 0, .set "1" 0 0, .set "2" 0 0,
        .set "10" 0 0, .set "01" 0 0]) ∧
    ((jsV_resizearray ⟨applyOps Store.empty [.set "0" 0 0, .set "1" 0 0, .set "2" 0 0,
        .set "10" 0 0, .set "01" 0 0], [], 3⟩ 1).length = 1 ∧
      lookup (jsV_resizearray ⟨applyOps Store.empty [.set "0" 0 0, .set "1" 0 0,
          .set "2" 0 0, .set "10" 0 0, .set "01" 0 0], [], 3⟩ 1).store.tree "10" =
        (if 1 < 3 ∧
            "10" ∈ jsV_newiterator ((applyOps Store.empty [.set "0" 0 0, .set "1" 0 0,
              .set "2" 0 0, .set "10" 0 0, .set "01" 0 0]) :: ([] : List Store)) true ∧
            resizeCond 1 "10"
         then none
         else lookup (applyOps Store.empty [.set "0" 0 0, .set "1" 0 0, .set "2" 0 0,
            .set "10" 0 0, .set "01" 0 0]).tree "10")) :=
  ⟨applyOps_WFS _,
    C8_resize_array ⟨applyOps Store.empty [.set "0" 0 0, .set "1" 0 0, .set "2" 0 0,
      .set "10" 0 0, .set "01" 0 0], [], 3⟩ (applyOps_WFS _) 1 "10"⟩

/-- C9: no operation writes a changed value into the sentinel: along every
reachable tree, the instrumented insert and delete paths (including the
rebalancing skews and splits applied through a node's right child and
right-right grandchild, either of which may be the sentinel) perform no
sentinel-state-changing store; `lookup` performs no store at all. -/
theorem C9_sentinel_untouched (ops : List Op) (x : String) :
    insTouch (applyOps Store.empty ops).tree x = false ∧
    delTouch (applyOps Store.empty ops).tree x = false :=
  ⟨insTouch_AA x (applyOps_WFS ops).aa,
    (del_main (applyOps Store.empty ops).tree x (applyOps_WFS ops).aa).2.2.2⟩

/-- C10: deleting a name absent from a reachable object is a complete no-op:
the tree is returned structurally identical — no level, child, key, data or
list linkage changes, and no rotation fires — and the store is unchanged. -/
theorem C10_delete_absent (ops : List Op) (x : String)
    (h : lookup (applyOps Store.empty ops).tree x = none) :
    jsV_delproperty (applyOps Store.empty ops) x = applyOps Store.empty ops :=
  delprop_absent (applyOps_WFS ops).aa h

theorem C10_delete_absent_witness :
    lookup (applyOps Store.empty [Op.set "a" 0 0]).tree "b" = none ∧
    jsV_delproperty (applyOps Store.empty [Op.set "a" 0 0]) "b" =
      applyOps Store.empty [Op.set "a" 0 0] :=
  ⟨by decide, C10_delete_absent [Op.set "a" 0 0] "b" (by decide)⟩

end MuJS
